import Mathlib

/-!
# file-to-c-array: a shallow embedding of `src/file_to_c_array.c` and of the helpers of `src/main.c`

* Text (C strings, the content the emitters write) is a `List Char`, one `Char` per `char` of
  the C string, the terminating NUL left out; a byte of the input file (`unsigned char`) is a
  `Fin 256`.  The program never calls `setlocale`, so the `<ctype.h>` functions are those of
  the "C" locale: only ASCII letters and digits are alphanumeric.
* A value of type `size_t` is a `Nat`; where the source relies on wrap-around (`line = -1`
  followed by `line++`) the arithmetic is taken modulo `2 ^ 64`.
* An execution that reads outside a string is undefined: the functions concerned return an
  `Option`, `none` standing for the undefined execution.
* The file system, the open streams and `error_msg` are the explicit state `World`.  A path
  denotes a file through `World.resolve`, so two spellings of one path denote one file.  The
  text given to `fprintf` stays pending in the stream until `fclose` flushes it.  Each library
  call takes its outcome from the state: from `World.faults` when the source tests the result
  (`fopen`, `ftell`, `fseek`, `malloc`, `fread`, `fprintf`), from `World.silent_faults` when it
  ignores it (`fclose`, `unlink`), so that quantifying over the initial state covers every
  pattern of failures.
-/

namespace FileToCArray

/-- One `unsigned char` of the input file. -/
abbrev Byte := Fin 256

/-! ## printf conversions -/

/-- The conversion `%zu`: the value in decimal, no padding. -/
def fmt_zu (n : Nat) : List Char := Nat.toDigits 10 n

/-- The conversion `%02x`: lowercase hexadecimal, zero padded to a minimum width of 2. -/
def fmt_02x (c : Nat) : List Char :=
  let ds := Nat.toDigits 16 c
  List.replicate (2 - ds.length) '0' ++ ds

/-! ## generate_source (lines 186-220) -/

/-- The output of the first `fprintf`, whose format `var_fmt` is `char %s[%zu] = ` followed by
an opening brace, a newline and four spaces. -/
def var_fmt (var_name : List Char) (file_size : Nat) : List Char :=
  "char ".toList ++ var_name ++ "[".toList ++ fmt_zu file_size ++ "] = \x7b\n    ".toList

/-- The file entry written at loop index `i` with line counter `line`, and the value of `line`
after the body (before the `line++` of the loop header): the entry closed by a newline, the
closing brace, `;` and a newline for the last byte, `"0x%02x,\n    "` with `line = -1` when
`line == 11`, and `"0x%02x, "` otherwise. -/
def source_entry (file_size i line : Nat) (c : Byte) : List Char × Nat :=
  if i + 1 = file_size then
    ("0x".toList ++ fmt_02x c.val ++ "\n\x7d;\n".toList, line)
  else if line = 11 then
    ("0x".toList ++ fmt_02x c.val ++ ",\n    ".toList, 2 ^ 64 - 1)
  else
    ("0x".toList ++ fmt_02x c.val ++ ", ".toList, line)

/-- The loop `for (size_t i = 0, line = 0; i < file_size; i++, line++)`: the list of the strings
written by the successive `fprintf` calls.  The first argument is the part of `file_content`
from index `i` on; `line` is a `size_t`, so `line++` is taken modulo `2 ^ 64`. -/
def source_loop (file_size : Nat) : List Byte → Nat → Nat → List (List Char)
  | [], _, _ => []
  | c :: rest, i, line =>
    let e := source_entry file_size i line c
    e.1 :: source_loop file_size rest (i + 1) ((e.2 + 1) % 2 ^ 64)

/-- Every string `generate_source` passes to `fprintf`, in order: the declaration, then one
string per byte. -/
def source_writes (var_name : List Char) (file_content : List Byte) : List (List Char) :=
  var_fmt var_name file_content.length ::
    source_loop file_content.length file_content 0 0

/-- The text of the source file when no `fprintf` fails. -/
def generate_source_text (var_name : List Char) (file_content : List Byte) : List Char :=
  (source_writes var_name file_content).flatten


/-! ## ctype.h in the "C" locale -/

/-- The predicate `isalpha` on an `unsigned char`: the 52 ASCII letters. -/
def isalpha (c : Char) : Bool := c.isAlpha

/-- The predicate `isalnum` on an `unsigned char`: the ASCII letters and digits. -/
def isalnum (c : Char) : Bool := c.isAlphanum

/-- The function `toupper`: a lowercase ASCII letter becomes its uppercase form. -/
def toupper (c : Char) : Char := c.toUpper

/-! ## get_basename (lines 57-76) -/

/-- The first loop of `get_basename`: `p` runs over the string and `path` is moved to `p + 1` at
every `/` or `\`.  The arguments are the part of the string from `p` on, the offset of `p` and
the current offset of `path`; the result is the offset of `path` after the loop. -/
def skip_directories : List Char → Nat → Nat → Nat
  | [], _, start => start
  | c :: cs, p, start =>
    skip_directories cs (p + 1) (if c = '/' ∨ c = '\\' then p + 1 else start)

/-- The second loop of `get_basename`, on the whole string `s` with `path` at offset `start`:
`last_c = path[name_length - 1]` is read, and `name_length` is decremented while it is a
separator.  With `name_length = 0` the index `name_length - 1` is `SIZE_MAX` and the read is
outside the string: undefined behaviour, `none`. -/
def strip_trailing (s : List Char) (start : Nat) : Nat → Option Nat
  | 0 => none
  | n + 1 =>
    match s.get? (start + n) with
    | none => none
    | some last_c =>
      if last_c = '/' ∨ last_c = '\\' then strip_trailing s start n else some (n + 1)

/-- The function `get_basename`: the returned pointer (as the string it points to) and the value
stored in `*basename_length`; `none` when the execution is undefined. -/
def get_basename (path : List Char) : Option (List Char × Nat) :=
  let start := skip_directories path 0 0
  let name_length := (path.drop start).length
  match strip_trailing path start name_length with
  | none => none
  | some n => some (path.drop start, n)

/-! ## generate_include_guard (lines 78-99) -/

/-- The message left in `error_msg` by `SET_ERROR`: `snprintf` keeps at most 1023 characters. -/
def error_text (msg : List Char) : List Char := msg.take 1023

/-- The body of the loop of `generate_include_guard` on one character. -/
def guard_char (c : Char) : Char :=
  if isalpha c then toupper c
  else if !isalnum c then '_'
  else c

/-- What `generate_include_guard` returns: `NULL`, with the message it has set, or the guard. -/
inductive GuardResult where
  /-- The result `NULL`; the argument is the message stored by `SET_ERROR`. -/
  | null (msg : List Char)
  /-- The allocated guard string. -/
  | guard (include_guard : List Char)
deriving DecidableEq

/-- The function `generate_include_guard`, given whether `malloc` fails: `none` when
`get_basename` is undefined. -/
def generate_include_guard (malloc_fails : Bool) (header_path : List Char) :
    Option GuardResult :=
  match get_basename header_path with
  | none => none
  | some (basename, basename_length) =>
    if malloc_fails then
      some (GuardResult.null (error_text ("Error allocating ".toList ++
        fmt_zu ((basename_length + 2) % 2 ^ 64) ++ " bytes".toList)))
    else
      some (GuardResult.guard ('_' :: (basename.take basename_length).map guard_char))

/-! ## The file system and the C library -/

/-- The state the program runs in.  A file is known by a name; `resolve` gives the name of the
file that a path denotes, so that two spellings of one path (`out.c` and `./out.c`) or a link
and its target denote one file.  An output stream keeps the text written to it in `pending`
until `fclose` flushes it.  The outcome of each library call still to come is taken from
`faults` for the calls whose result the source tests (`fopen`, `ftell`, `fseek`, `malloc`,
`fread`, `fprintf`) and from `silent_faults` for the calls whose result it ignores (`fclose`,
`unlink`); `true` means that the call fails, and when a list is exhausted calls succeed. -/
structure World where
  /-- The content of the file of a given name, if there is one. -/
  files : List Char → Option (List Byte)
  /-- The name of the file that a path denotes. -/
  resolve : List Char → List Char
  /-- The streams that are open: handle and path given to `fopen`. -/
  streams : List (Nat × List Char)
  /-- The output of a stream that has not reached its file yet. -/
  pending : Nat → List Byte
  /-- The handle the next `fopen` returns. -/
  next_handle : Nat
  /-- The static buffer `error_msg`. -/
  error_msg : List Char
  /-- The text of `strerror(errno)`. -/
  strerror : List Char
  /-- The outcomes of the calls to come whose result is tested. -/
  faults : List Bool
  /-- The outcomes of the calls to come whose result is ignored. -/
  silent_faults : List Bool

/-- The bytes of a text. -/
def encode (text : List Char) : List Byte := text.map (fun c => Fin.ofNat c.toNat)

/-- Takes the outcome of the next fallible call. -/
def next_fault (w : World) : Bool × World :=
  match w.faults with
  | [] => (false, w)
  | f :: fs => (f, { w with faults := fs })

/-- Takes the outcome of the next call whose result is ignored. -/
def next_silent_fault (w : World) : Bool × World :=
  match w.silent_faults with
  | [] => (false, w)
  | f :: fs => (f, { w with silent_faults := fs })

/-- The call `fopen(path, "rb")`: fails when told to or when there is no such file. -/
def fopen_rb (w : World) (path : List Char) : Option Nat × World :=
  let r := next_fault w
  if r.1 || (r.2.files (r.2.resolve path)).isNone then (none, r.2)
  else (some r.2.next_handle,
    { r.2 with streams := (r.2.next_handle, path) :: r.2.streams,
               next_handle := r.2.next_handle + 1 })

/-- The call `fopen(path, "w")`: unless it fails, the file is created or truncated and the
stream starts with nothing pending. -/
def fopen_w (w : World) (path : List Char) : Option Nat × World :=
  let r := next_fault w
  if r.1 then (none, r.2)
  else (some r.2.next_handle,
    { r.2 with files := fun p => if p = r.2.resolve path then some [] else r.2.files p,
               streams := (r.2.next_handle, path) :: r.2.streams,
               pending := fun h => if h = r.2.next_handle then [] else r.2.pending h,
               next_handle := r.2.next_handle + 1 })

/-- The path a stream was opened on. -/
def stream_path (w : World) (fp : Nat) : Option (List Char) :=
  (w.streams.find? (fun s => s.1 = fp)).map (fun s => s.2)

/-- The call `fprintf(fp, ...)` producing `text`: `false` when the result is negative; unless it
fails, the text joins the pending output of the stream. -/
def fprintf (w : World) (fp : Nat) (text : List Char) : Bool × World :=
  let r := next_fault w
  if r.1 then (false, r.2)
  else (true, { r.2 with pending := fun h =>
    if h = fp then r.2.pending fp ++ encode text else r.2.pending h })

/-- The call `fclose(fp)`, whose result the source ignores: the stream is closed; its pending
output is appended to its file, or lost when the call fails. -/
def fclose (w : World) (fp : Nat) : World :=
  let r := next_silent_fault w
  if r.1 then { r.2 with streams := r.2.streams.filter (fun s => s.1 ≠ fp) }
  else
    match stream_path r.2 fp with
    | none => { r.2 with streams := r.2.streams.filter (fun s => s.1 ≠ fp) }
    | some path =>
      { r.2 with
        files := fun p =>
          if p = r.2.resolve path then (r.2.files p).map (fun old => old ++ r.2.pending fp)
          else r.2.files p,
        streams := r.2.streams.filter (fun s => s.1 ≠ fp) }

/-- The call `unlink(path)`, whose result the source ignores: the file is removed, unless the
call fails. -/
def unlink (w : World) (path : List Char) : World :=
  let r := next_silent_fault w
  if r.1 then r.2
  else { r.2 with files := fun p => if p = r.2.resolve path then none else r.2.files p }

/-- The assignment `SET_ERROR(...)` with the formatted message `msg`. -/
def SET_ERROR (w : World) (msg : List Char) : World :=
  { w with error_msg := error_text msg }

/-- The assignment `SET_ERROR_ERRNO(...)`: the message, `": "` and `strerror(errno)`. -/
def SET_ERROR_ERRNO (w : World) (msg : List Char) : World :=
  SET_ERROR w (msg ++ ": ".toList ++ w.strerror)

/-- The assignment `RESET_ERROR()`. -/
def RESET_ERROR (w : World) : World := { w with error_msg := [] }

/-! ## read_file_content (lines 101-146) -/

/-- The function `get_file_size`: `ftell`, `fseek`, `ftell`, `fseek`, each of which can fail;
`none` for the result 0, the size of the file otherwise. -/
def get_file_size (w : World) (fp : Nat) : Option Nat × World :=
  let r1 := next_fault w
  if r1.1 then (none, r1.2) else
  let r2 := next_fault r1.2
  if r2.1 then (none, r2.2) else
  let r3 := next_fault r2.2
  if r3.1 then (none, r3.2) else
  let r4 := next_fault r3.2
  if r4.1 then (none, r4.2) else
  match stream_path r4.2 fp with
  | none => (none, r4.2)
  | some path => (((r4.2.files (r4.2.resolve path)).map List.length), r4.2)

/-- The function `read_file_content`: `none` for `NULL`, the content (whose length is `*size`)
otherwise.  The stream is closed on the failure paths only, as in the source. -/
def read_file_content (w : World) (file_path : List Char) : Option (List Byte) × World :=
  match fopen_rb w file_path with
  | (none, w1) => (none, SET_ERROR_ERRNO w1 ("Failed to open ".toList ++ file_path))
  | (some fp, w1) =>
    match get_file_size w1 fp with
    | (none, w2) =>
      (none, fclose (SET_ERROR_ERRNO w2
        ("Failed to obtain the size of ".toList ++ file_path)) fp)
    | (some size, w2) =>
      let m := next_fault w2
      if m.1 then
        (none, fclose (SET_ERROR m.2
          ("Failed to allocate ".toList ++ fmt_zu size ++ " bytes".toList)) fp)
      else
        let r := next_fault m.2
        if r.1 then
          (none, fclose (SET_ERROR r.2 ("Failed to read ".toList ++ file_path)) fp)
        else
          (some (((r.2.files (r.2.resolve file_path)).getD []).take size), r.2)

/-! ## generate_header (lines 148-184) -/

/-- The output of `fprintf(fp, header_fmt, include_guard, include_guard, var_name, file_size)`. -/
def header_fmt (include_guard var_name : List Char) (file_size : Nat) : List Char :=
  "#ifndef ".toList ++ include_guard ++ "\n#define ".toList ++ include_guard ++
    "\n\nextern char ".toList ++ var_name ++ "[".toList ++ fmt_zu file_size ++
    "];\n\n#endif\n".toList

/-- The function `generate_header`: the returned `int` and the state afterwards; `none` when
`get_basename` is undefined on the header path. -/
def generate_header (w : World) (header_path var_name : List Char) (file_size : Nat) :
    Option (Nat × World) :=
  match fopen_w w header_path with
  | (none, w1) => some (0, SET_ERROR_ERRNO w1 ("Failed to open ".toList ++ header_path))
  | (some fp, w1) =>
    let m := next_fault w1
    match generate_include_guard m.1 header_path with
    | none => none
    | some (GuardResult.null msg) => some (0, fclose { m.2 with error_msg := msg } fp)
    | some (GuardResult.guard include_guard) =>
      match fprintf m.2 fp (header_fmt include_guard var_name file_size) with
      | (false, w2) =>
        some (0, unlink (fclose (SET_ERROR_ERRNO w2
          ("Failed to write to ".toList ++ header_path)) fp) header_path)
      | (true, w2) => some (1, fclose w2 fp)

/-! ## generate_source with its calls (lines 186-220) -/

/-- The successive `fprintf` calls of `generate_source` on the stream `fp`: at the first failure
the error is set, the stream closed and 0 returned; after the last one the stream is closed and
1 returned. -/
def write_all (source_path : List Char) (fp : Nat) : World → List (List Char) → Nat × World
  | w, [] => (1, fclose w fp)
  | w, text :: rest =>
    match fprintf w fp text with
    | (false, w1) =>
      (0, fclose (SET_ERROR_ERRNO w1 ("Failed to write to ".toList ++ source_path)) fp)
    | (true, w1) => write_all source_path fp w1 rest

/-- The function `generate_source`: the returned `int` and the state afterwards. -/
def generate_source (w : World) (source_path var_name : List Char) (file_content : List Byte) :
    Nat × World :=
  match fopen_w w source_path with
  | (none, w1) => (0, SET_ERROR_ERRNO w1 ("Failed to open ".toList ++ source_path))
  | (some fp, w1) => write_all source_path fp w1 (source_writes var_name file_content)

/-! ## file_to_c_array (lines 34-55) -/

/-- The function `file_to_c_array`: the returned `int` and the state afterwards; `none` when
the execution is undefined. -/
def file_to_c_array (w : World) (file_path header_path source_path var_name : List Char) :
    Option (Nat × World) :=
  match read_file_content w file_path with
  | (none, w1) => some (0, w1)
  | (some file_content, w1) =>
    match generate_header w1 header_path var_name file_content.length with
    | none => none
    | some (0, w2) => some (0, w2)
    | some (_, w2) =>
      match generate_source w2 source_path var_name file_content with
      | (0, w3) => some (0, unlink w3 header_path)
      | (_, w3) => some (1, RESET_ERROR w3)

/-! ## main.c: is_valid_ident (lines 110-134) and the check of the variable name (lines 36-46) -/

/-- The predicate `isascii`: the character code is below 128. -/
def isascii (c : Char) : Bool := c.toNat < 128

/-- The function `is_valid_ident`: the returned `int`.  The first character is tested by the
first `if` of the selected branch, the later ones by the loop `for (size_t i = 1; ...)`. -/
def is_valid_ident (ident : List Char) (enable_non_ascii : Nat) : Nat :=
  match ident with
  | [] => 0
  | c0 :: rest =>
    if enable_non_ascii ≠ 0 then
      if isascii c0 && !isalpha c0 && c0 != '_' then 0
      else if rest.any (fun c => isascii c && !isalnum c && c != '_') then 0
      else 1
    else
      if !isascii c0 && !isalpha c0 && c0 != '_' then 0
      else if rest.any (fun c => !isalnum c && c != '_') then 0
      else 1

/-- The check of a given variable name in `main`: `true` when `main` goes on (possibly after the
warning about non-ASCII names) and passes the name to `file_to_c_array`, `false` when it
reports `is not a valid variable name` and returns 1. -/
def main_passes_variable (var_name : List Char) : Bool :=
  if is_valid_ident var_name 0 = 0 then
    if is_valid_ident var_name 1 ≠ 0 then true else false
  else true

/-! ## main.c: add_extension (lines 86-108) -/

/-- The loop `while (i >= 0 && (path[i] == '/' || path[i] == '\\')) i--;` started at `i`: the
index it stops at.  As `i` is a `size_t`, `i >= 0` always holds; when `path[0]` is a separator
`i--` wraps to `SIZE_MAX` and the next read is outside the string: `none`. -/
def add_extension_strip (path : List Char) : Nat → Option Nat
  | 0 =>
    match path.get? 0 with
    | none => none
    | some c => if c = '/' ∨ c = '\\' then none else some 0
  | i + 1 =>
    match path.get? (i + 1) with
    | none => none
    | some c => if c = '/' ∨ c = '\\' then add_extension_strip path i else some (i + 1)

/-- The call `memcpy(out + offset, src, n)` where `src` holds the `n` bytes copied, on a buffer
`out`; `none` when a byte would be written outside the buffer. -/
def memcpy (out : List Char) (offset : Nat) (src : List Char) : Option (List Char) :=
  if offset + src.length ≤ out.length then
    some (out.take offset ++ src ++ out.drop (offset + src.length))
  else none

/-- The function `add_extension` on a buffer `out` of `out_len = out.length` bytes: the returned
`int` and the buffer afterwards; `none` when the execution is undefined.  The first test is
`path[0] == 0`, that is, the path is empty. -/
def add_extension (path extension out : List Char) : Option (Nat × List Char) :=
  if path = [] then some (0, out) else
  match add_extension_strip path (path.length - 1) with
  | none => none
  | some last =>
    let i := last + 1
    if i > out.length then some (0, out) else
    match memcpy out 0 (path.take i) with
    | none => none
    | some out1 =>
      let out_len1 := out.length - i
      if extension.length > out_len1 then some (0, out1) else
      match memcpy out1 i extension with
      | none => none
      | some out2 =>
        let out_len2 := out_len1 - extension.length
        if out_len2 < 1 then some (0, out2) else
        match memcpy out2 (i + extension.length) ['\x00'] with
        | none => none
        | some out3 => some (1, out3)

/-! ## Definitions that follow the specification -/

/-- The number a non-empty string of decimal digits denotes; `none` for any other string. -/
def decimalValue (s : List Char) : Option Nat :=
  if s ≠ [] ∧ s.all Char.isDigit then
    some (s.foldl (fun a c => 10 * a + (c.toNat - '0'.toNat)) 0)
  else none

/-- Consecutive groups of `k` elements, the last one possibly shorter; the first argument after
`k` bounds the number of groups. -/
def groupsAux {α : Type} (k : Nat) : Nat → List α → List (List α)
  | 0, _ => []
  | _, [] => []
  | fuel + 1, x :: xs => (x :: xs).take k :: groupsAux k fuel ((x :: xs).drop k)

/-- The list split into consecutive groups of `k` elements, the last one holding 1 to `k`. -/
def groupsOf {α : Type} (k : Nat) (xs : List α) : List (List α) := groupsAux k xs.length xs

/-- The lowercase hexadecimal digit of a value below 16. -/
def lowerHexDigit (d : Nat) : Char := "0123456789abcdef".toList.getD d '0'

/-- A byte rendered as `0x` and exactly two lowercase hexadecimal digits. -/
def byte_entry (c : Byte) : List Char :=
  ['0', 'x', lowerHexDigit (c.val / 16), lowerHexDigit (c.val % 16)]

/-- The entries of one group joined by `, `. -/
def row_text (g : List Byte) : List Char := List.intercalate ", ".toList (g.map byte_entry)

/-- The reference layout of the source file: the declaration with the size in decimal, the
groups of 12 entries joined by a comma, a newline and four spaces, and the closing line. -/
def reference_layout (v : List Char) (b : List Byte) : List Char :=
  "char ".toList ++ v ++ "[".toList ++ (toString b.length).toList ++ "] = \x7b\n    ".toList ++
    List.intercalate ",\n    ".toList ((groupsOf 12 b).map row_text) ++ "\n\x7d;\n".toList


/-- The value of a hexadecimal digit, of either case. -/
def hexVal (c : Char) : Option Nat :=
  if '0' ≤ c ∧ c ≤ '9' then some (c.toNat - '0'.toNat)
  else if 'a' ≤ c ∧ c ≤ 'f' then some (c.toNat - 'a'.toNat + 10)
  else if 'A' ≤ c ∧ c ≤ 'F' then some (c.toNat - 'A'.toNat + 10)
  else none

/-- A character of a word: a letter, a digit, `_` or a non-ASCII byte. -/
def is_word_char (c : Char) : Bool := c.isAlphanum || c = '_' || !isascii c

/-- The value of a word that is a token `0xNN`: `0`, `x` and two hexadecimal digits. -/
def word_value (word : List Char) : Option Nat :=
  match word with
  | [c0, c1, h, l] =>
    if c0 = '0' ∧ c1 = 'x' then
      match hexVal h, hexVal l with
      | some a, some b => some (16 * a + b)
      | _, _ => none
    else none
  | _ => none

/-- The value of a finished word, if it is a token `0xNN`. -/
def word_tokens (word : List Char) : List Nat :=
  match word_value word with
  | some n => [n]
  | none => []

/-- The scan of a text into words, the maximal runs of word characters (identifiers and
numbers), keeping the values of the words that are tokens `0xNN`; the first argument is the
word being read. -/
def hexTokensAux : List Char → List Char → List Nat
  | word, [] => word_tokens word
  | word, c :: cs =>
    if is_word_char c then hexTokensAux (word ++ [c]) cs
    else word_tokens word ++ hexTokensAux [] cs

/-- The values of the `0xNN` tokens of a text, in order. -/
def hexTokens (text : List Char) : List Nat := hexTokensAux [] text

/-- The path without its trailing separators. -/
def strip_separators (path : List Char) : List Char :=
  (path.reverse.dropWhile (fun c => c = '/' || c = '\\')).reverse

/-- The basename in the words of the specification: the text after the last separator of the
path, once its trailing separators are stripped. -/
def spec_basename (path : List Char) : List Char :=
  ((strip_separators path).reverse.takeWhile (fun c => !(c = '/' || c = '\\'))).reverse

/-- The mapping of one basename character as the specification words it. -/
def spec_guard_char (c : Char) : Char :=
  if c.isAlpha then c.toUpper
  else if c.isDigit then c
  else '_'

/-- Membership in `[A-Z0-9_]`. -/
def guard_alphabet (c : Char) : Bool := c.isUpper || c.isDigit || c = '_'

/-- A state with one input file `in.bin` of three bytes, in which every path is the name of its
file, and the given outcomes of the library calls whose result is tested. -/
def sample_world (faults : List Bool) : World :=
  { files := fun p => if p = "in.bin".toList then some [1, 2, 255] else none
    resolve := fun p => p
    streams := []
    pending := fun _ => []
    next_handle := 3
    error_msg := []
    strerror := "No space left on device".toList
    faults := faults
    silent_faults := [] }

/-- The outcomes of the library calls in a run where the second `fprintf` of `generate_source`
fails: seven calls of `read_file_content`, three of `generate_header`, `fopen` and one
`fprintf` of `generate_source` succeed. -/
def source_write_fails : List Bool :=
  [false, false, false, false, false, false, false, false, false, false, false, false, true]

/-- A legal identifier in the words of the specification: non-empty, the first character a
letter, `_` or a non-ASCII byte, every later one a letter, a digit, `_` or a non-ASCII byte. -/
def legal_identifier (s : List Char) : Bool :=
  match s with
  | [] => false
  | c0 :: rest =>
    (c0.isAlpha || c0 = '_' || !isascii c0) &&
      rest.all (fun c => c.isAlphanum || c = '_' || !isascii c)

/-- A string matching `[A-Za-z_][A-Za-z0-9_]*`. -/
def ascii_identifier (s : List Char) : Bool :=
  match s with
  | [] => false
  | c0 :: rest => (c0.isAlpha || c0 = '_') && rest.all (fun c => c.isAlphanum || c = '_')

/-- What follows the entry of index `i` in a file of `n` bytes, as `generate_source` writes it:
the closing line after the last entry, a comma, a newline and four spaces after the 12th entry
of a line, a comma and a space otherwise. -/
def entry_separator (n i : Nat) : List Char :=
  if i + 1 = n then "\n\x7d;\n".toList
  else if i % 12 = 11 then ",\n    ".toList
  else ", ".toList

/-- What follows the entry of index `i` in a file of `n` bytes under the rule "a comma and a
space after every entry but the last". -/
def comma_space_separator (n i : Nat) : List Char :=
  if i + 1 = n then "\n\x7d;\n".toList else ", ".toList

/-- The declaration followed by every entry with what the rule `sep` puts after it. -/
def separated_layout (sep : Nat → Nat → List Char) (v : List Char) (b : List Byte) : List Char :=
  "char ".toList ++ v ++ "[".toList ++ (toString b.length).toList ++ "] = \x7b\n    ".toList ++
    (b.enum.map (fun e => byte_entry e.2 ++ sep b.length e.1)).flatten

/-- The thirteen bytes 1 to 13. -/
def thirteen_bytes : List Byte := [1, 2, 3, 4, 5, 6, 7, 8, 9, 10, 11, 12, 13]

/-- The outcomes of the library calls in a run where `malloc` fails in
`generate_include_guard`: the seven calls of `read_file_content` and the `fopen` of
`generate_header` succeed. -/
def guard_malloc_fails : List Bool :=
  [false, false, false, false, false, false, false, false, true]

/-- The state `sample_world source_write_fails` in which, of the calls whose result is
ignored, the two `fclose` succeed and the `unlink` of `file_to_c_array` fails (as for a header
that exists in a directory closed to writing). -/
def unlink_fails_world : World :=
  { sample_world source_write_fails with silent_faults := [false, false, true] }

/-- The outcomes of the library calls in a run where the `fprintf` of `generate_header` fails:
the seven calls of `read_file_content`, the `fopen` and the `malloc` of `generate_header`
succeed. -/
def header_write_fails : List Bool :=
  [false, false, false, false, false, false, false, false, false, true]

/-- A state in which the paths `out.c` and `./out.c` denote one file, which exists and holds
one byte, next to the input file `in.bin`. -/
def alias_world (faults : List Bool) : World :=
  { files := fun p =>
      if p = "in.bin".toList then some [1, 2, 255]
      else if p = "out.c".toList then some [7]
      else none
    resolve := fun p => if p = "./out.c".toList then "out.c".toList else p
    streams := []
    pending := fun _ => []
    next_handle := 3
    error_msg := []
    strerror := "No space left on device".toList
    faults := faults
    silent_faults := [] }

/-! ## Lemmas -/

theorem toDigits16_small (c : Nat) (h : c < 16) : Nat.toDigits 16 c = [Nat.digitChar c] := by
  have h0 : c / 16 = 0 := by omega
  have h1 : c % 16 = c := by omega
  simp [Nat.toDigits, Nat.toDigitsCore, h0, h1]

theorem toDigits16_two (c : Nat) (h : 16 ≤ c) (h2 : c < 256) :
    Nat.toDigits 16 c = [Nat.digitChar (c / 16), Nat.digitChar (c % 16)] := by
  have h0 : c / 16 ≠ 0 := by omega
  have h1 : c / 16 / 16 = 0 := by omega
  have h3 : c / 16 % 16 = c / 16 := by omega
  obtain ⟨k, rfl⟩ : ∃ k, c = k + 1 := ⟨c - 1, by omega⟩
  simp [Nat.toDigits, Nat.toDigitsCore, h0, h1, h3]

theorem fmt_02x_byte (c : Byte) :
    fmt_02x c.val = [Nat.digitChar (c.val / 16), Nat.digitChar (c.val % 16)] := by
  have hc := c.isLt
  by_cases h : c.val < 16
  · have h0 : c.val / 16 = 0 := by omega
    have h1 : c.val % 16 = c.val := by omega
    simp [fmt_02x, toDigits16_small _ h, h0, h1]
    rfl
  · simp [fmt_02x, toDigits16_two _ (by omega) hc]


theorem hexVal_digitChar (d : Fin 16) : hexVal (Nat.digitChar d.val) = some d.val := by
  revert d; decide


theorem digitChar_isDigit (d : Fin 10) :
    (Nat.digitChar d.val).isDigit = true ∧ (Nat.digitChar d.val).toNat - '0'.toNat = d.val := by
  revert d; decide

theorem toDigitsCore_ten (fuel : Nat) : ∀ n, n < fuel →
    ∃ l : List Char, l ≠ [] ∧ (∀ c ∈ l, c.isDigit = true) ∧
      l.foldl (fun a c => 10 * a + (c.toNat - '0'.toNat)) 0 = n ∧
      ∀ ds, Nat.toDigitsCore 10 fuel n ds = l ++ ds := by
  induction fuel with
  | zero => intro n h; omega
  | succ f ih =>
    intro n hn
    have hd := digitChar_isDigit ⟨n % 10, Nat.mod_lt _ (by decide)⟩
    simp only at hd
    by_cases h0 : n / 10 = 0
    · refine ⟨[Nat.digitChar (n % 10)], by simp, by simpa using hd.1, ?_, ?_⟩
      · simp only [List.foldl_cons, List.foldl_nil, hd.2]; omega
      · intro ds; simp [Nat.toDigitsCore, h0]
    · obtain ⟨l, hl1, hl2, hl3, hl4⟩ := ih (n / 10) (by omega)
      refine ⟨l ++ [Nat.digitChar (n % 10)], by simp, ?_, ?_, ?_⟩
      · intro c hc
        rcases List.mem_append.1 hc with hc | hc
        · exact hl2 c hc
        · simp only [List.mem_singleton] at hc; rw [hc]; exact hd.1
      · simp only [List.foldl_append, List.foldl_cons, List.foldl_nil, hl3, hd.2]; omega
      · intro ds; simp [Nat.toDigitsCore, h0, hl4]

theorem decimalValue_fmt_zu (n : Nat) : decimalValue (fmt_zu n) = some n := by
  obtain ⟨l, hl1, hl2, hl3, hl4⟩ := toDigitsCore_ten (n + 1) n (Nat.lt_succ_self n)
  have e : fmt_zu n = l := by simpa [fmt_zu, Nat.toDigits] using hl4 []
  rw [e, decimalValue, if_pos ⟨hl1, List.all_eq_true.2 hl2⟩, hl3]

theorem groupsAux_fuel {α : Type} (k : Nat) (hk : 0 < k) (f : Nat) :
    ∀ (xs : List α), xs.length ≤ f → groupsAux k f xs = groupsAux k xs.length xs := by
  induction f using Nat.strong_induction_on with
  | _ f ih =>
    intro xs hxs
    cases xs with
    | nil => cases f <;> rfl
    | cons x xs =>
      cases f with
      | zero => simp at hxs
      | succ f =>
        have hl : ((x :: xs).drop k).length ≤ xs.length := by
          simp only [List.length_drop, List.length_cons]; omega
        simp only [List.length_cons, groupsAux]
        rw [ih f (Nat.lt_succ_self f) _ (by simp only [List.length_cons] at hxs; omega),
          ih xs.length (by simp only [List.length_cons] at hxs; omega) _ hl]

theorem groupsOf_nil {α : Type} (k : Nat) : groupsOf k ([] : List α) = [] := rfl

theorem groupsOf_cons {α : Type} (k : Nat) (hk : 0 < k) (xs : List α) (h : xs ≠ []) :
    groupsOf k xs = xs.take k :: groupsOf k (xs.drop k) := by
  cases xs with
  | nil => exact absurd rfl h
  | cons x xs =>
    have hl : ((x :: xs).drop k).length ≤ xs.length := by
      simp only [List.length_drop, List.length_cons]; omega
    simp only [groupsOf, List.length_cons, groupsAux]
    rw [groupsAux_fuel k hk xs.length _ hl]

theorem groupsOf_short {α : Type} (k : Nat) (hk : 0 < k) (xs : List α) (h : xs ≠ [])
    (hl : xs.length ≤ k) : groupsOf k xs = [xs] := by
  rw [groupsOf_cons k hk xs h, List.take_of_length_le hl, List.drop_of_length_le hl, groupsOf_nil]

theorem groupsOf_ne_nil {α : Type} (k : Nat) (hk : 0 < k) (xs : List α) (h : xs ≠ []) :
    groupsOf k xs ≠ [] := by
  rw [groupsOf_cons k hk xs h]; simp


theorem digitChar_lower (d : Fin 16) : Nat.digitChar d.val = lowerHexDigit d.val := by
  revert d; decide

theorem entry_eq (c : Byte) : "0x".toList ++ fmt_02x c.val = byte_entry c := by
  have h1 : c.val / 16 < 16 := by have := c.isLt; omega
  have h2 : c.val % 16 < 16 := by omega
  have e1 := digitChar_lower ⟨c.val / 16, h1⟩
  have e2 := digitChar_lower ⟨c.val % 16, h2⟩
  simp only at e1 e2
  rw [fmt_02x_byte, e1, e2]; rfl

theorem intercalate_cons_cons {α : Type} (sep x y : List α) (r : List (List α)) :
    List.intercalate sep (x :: y :: r) = x ++ sep ++ List.intercalate sep (y :: r) := by
  simp [List.intercalate, List.intersperse]

theorem intercalate_cons_of_ne {α : Type} (sep x : List α) (r : List (List α)) (h : r ≠ []) :
    List.intercalate sep (x :: r) = x ++ sep ++ List.intercalate sep r := by
  cases r with
  | nil => exact absurd rfl h
  | cons y r => exact intercalate_cons_cons sep x y r

theorem intercalate_single {α : Type} (sep x : List α) : List.intercalate sep [x] = x := by
  simp [List.intercalate, List.intersperse]

/-- The loop on the bytes that end the file, all on the current line. -/
theorem source_loop_last (n : Nat) (g : List Byte) : ∀ (i line : Nat), g ≠ [] →
    line + g.length ≤ 12 → i + g.length = n →
    (source_loop n g i line).flatten = row_text g ++ "\n\x7d;\n".toList := by
  induction g with
  | nil => intro i line h; exact absurd rfl h
  | cons c cs ih =>
    intro i line _ hline hi
    cases cs with
    | nil =>
      have : i + 1 = n := by simpa using hi
      simp only [source_loop, source_entry, if_pos this, List.flatten_cons, List.flatten_nil,
        List.append_nil, row_text, List.map_cons, List.map_nil, intercalate_single, entry_eq]
    | cons d ds =>
      simp only [List.length_cons] at hline hi
      have h1 : i + 1 ≠ n := by omega
      have h2 : line ≠ 11 := by omega
      have h3 : (line + 1) % 2 ^ 64 = line + 1 := Nat.mod_eq_of_lt (by omega)
      have := ih (i + 1) (line + 1) (by simp) (by simp only [List.length_cons]; omega)
        (by simp only [List.length_cons]; omega)
      rw [source_loop]
      simp only [source_entry, if_neg h1, if_neg h2, h3, List.flatten_cons, this, row_text,
        List.map_cons, intercalate_cons_cons, entry_eq, List.append_assoc]

/-- The loop on the bytes that fill the current line, more bytes following. -/
theorem source_loop_full (n : Nat) (g rest : List Byte) (hrest : rest ≠ []) :
    ∀ (i line : Nat), g ≠ [] → line + g.length = 12 → i + g.length + rest.length = n →
    (source_loop n (g ++ rest) i line).flatten =
      row_text g ++ ",\n    ".toList ++ (source_loop n rest (i + g.length) 0).flatten := by
  have hr : 0 < rest.length := List.length_pos.2 hrest
  induction g with
  | nil => intro i line h; exact absurd rfl h
  | cons c cs ih =>
    intro i line _ hline hi
    cases cs with
    | nil =>
      simp only [List.length_cons, List.length_nil] at hline hi
      have h1 : i + 1 ≠ n := by omega
      have h2 : line = 11 := by omega
      have h3 : (2 ^ 64 - 1 + 1) % 2 ^ 64 = 0 := by decide
      rw [List.singleton_append, source_loop]
      simp only [source_entry, if_neg h1, if_pos h2, h3,
        List.flatten_cons, row_text, List.map_cons, List.map_nil, intercalate_single, entry_eq,
        List.length_cons, List.length_nil, List.append_assoc, Nat.zero_add]
    | cons d ds =>
      simp only [List.length_cons] at hline hi
      have h1 : i + 1 ≠ n := by omega
      have h2 : line ≠ 11 := by omega
      have h3 : (line + 1) % 2 ^ 64 = line + 1 := Nat.mod_eq_of_lt (by omega)
      have := ih (i + 1) (line + 1) (by simp) (by simp only [List.length_cons]; omega)
        (by simp only [List.length_cons]; omega)
      rw [List.cons_append, source_loop]
      simp only [source_entry, if_neg h1, if_neg h2, h3, List.flatten_cons, this, row_text,
        List.map_cons, intercalate_cons_cons, entry_eq, List.append_assoc, List.length_cons]
      congr 6
      omega

theorem source_loop_layout (n : Nat) (m : Nat) : ∀ (b : List Byte) (i : Nat), b.length = m →
    b ≠ [] → i + b.length = n →
    (source_loop n b i 0).flatten =
      List.intercalate ",\n    ".toList ((groupsOf 12 b).map row_text) ++ "\n\x7d;\n".toList := by
  induction m using Nat.strong_induction_on with
  | _ m ih =>
    intro b i hm hb hi
    by_cases hl : b.length ≤ 12
    · rw [groupsOf_short 12 (by decide) b hb hl, List.map_cons, List.map_nil, intercalate_single]
      exact source_loop_last n b i 0 hb (by omega) hi
    · have hd : b.drop 12 ≠ [] := by
        intro h
        have := congrArg List.length h
        simp only [List.length_drop, List.length_nil] at this
        omega
      have ht : b.take 12 ≠ [] := by
        intro h
        have := congrArg List.length h
        simp only [List.length_take, List.length_nil] at this
        omega
      have hlt : (b.take 12).length = 12 := by simp only [List.length_take]; omega
      have hld : (b.drop 12).length = b.length - 12 := by simp only [List.length_drop]
      rw [groupsOf_cons 12 (by decide) b hb, List.map_cons,
        intercalate_cons_of_ne _ _ _ (by simpa using groupsOf_ne_nil 12 (by decide) _ hd)]
      conv_lhs => rw [← List.take_append_drop 12 b]
      rw [source_loop_full n _ _ hd i 0 ht (by omega) (by omega),
        ih (b.length - 12) (by omega) (b.drop 12) (i + (b.take 12).length) hld hd (by omega)]
      simp only [List.append_assoc]


theorem toString_toList (n : Nat) : (toString n).toList = fmt_zu n := rfl

/-- The text written for a non-empty input is the reference layout. -/
theorem generate_source_text_layout (v : List Char) (b : List Byte) (hb : b ≠ []) :
    generate_source_text v b = reference_layout v b := by
  unfold generate_source_text source_writes reference_layout var_fmt
  rw [List.flatten_cons, source_loop_layout b.length b.length b 0 rfl hb (by omega),
    toString_toList]
  simp only [List.append_assoc]

theorem groupsOf_spec {α : Type} (k : Nat) (hk : 0 < k) (m : Nat) : ∀ (xs : List α),
    xs.length = m →
    (groupsOf k xs).flatten = xs ∧ (groupsOf k xs).length = (xs.length + k - 1) / k ∧
    (∀ g ∈ (groupsOf k xs).dropLast, g.length = k) ∧
    (∀ g ∈ groupsOf k xs, 0 < g.length ∧ g.length ≤ k) := by
  induction m using Nat.strong_induction_on with
  | _ m ih =>
    intro xs hm
    by_cases hx : xs = []
    · subst hx
      refine ⟨rfl, ?_, by simp [groupsOf_nil], by simp [groupsOf_nil]⟩
      simp only [groupsOf_nil, List.length_nil, Nat.zero_add]
      exact (Nat.div_eq_of_lt (by omega)).symm
    · have hpos : 0 < xs.length := List.length_pos.2 hx
      have hd : (xs.drop k).length = xs.length - k := by simp only [List.length_drop]
      obtain ⟨i1, i2, i3, i4⟩ := ih (xs.length - k) (by omega) (xs.drop k) hd
      rw [groupsOf_cons k hk xs hx]
      refine ⟨?_, ?_, ?_, ?_⟩
      · rw [List.flatten_cons, i1, List.take_append_drop]
      · rw [List.length_cons, i2, hd]
        by_cases hle : xs.length ≤ k
        · have e1 : xs.length - k = 0 := by omega
          have e2 : xs.length + k - 1 = (xs.length - 1) + k := by omega
          rw [e1, Nat.zero_add, Nat.div_eq_of_lt (by omega), e2, Nat.add_div_right _ hk,
            Nat.div_eq_of_lt (by omega)]
        · have : xs.length + k - 1 = (xs.length - k + k - 1) + k := by omega
          rw [this, Nat.add_div_right _ hk]
      · intro g hg
        by_cases hnil : groupsOf k (xs.drop k) = []
        · rw [hnil] at hg; simp at hg
        · rw [List.dropLast_cons_of_ne_nil hnil] at hg
          rcases List.mem_cons.1 hg with hg | hg
          · have hdrop : xs.drop k ≠ [] := by
              intro h; rw [h, groupsOf_nil] at hnil; exact hnil rfl
            have : 0 < (xs.drop k).length := List.length_pos.2 hdrop
            rw [hg, List.length_take]; omega
          · exact i3 g hg
      · intro g hg
        rcases List.mem_cons.1 hg with hg | hg
        · rw [hg, List.length_take]; omega
        · exact i4 g hg


theorem lines_shape (rows : List (List Char)) (h : rows ≠ []) :
    "    ".toList ++ List.intercalate ",\n    ".toList rows =
      (rows.dropLast.map (fun r => "    ".toList ++ r ++ ",\n".toList)).flatten ++
        "    ".toList ++ rows.getLast h := by
  induction rows with
  | nil => exact absurd rfl h
  | cons r rs ih =>
    cases rs with
    | nil => simp [intercalate_single]
    | cons r2 rs =>
      have := ih (by simp)
      rw [intercalate_cons_cons, List.dropLast_cons_of_ne_nil (by simp), List.map_cons,
        List.flatten_cons, List.getLast_cons (by simp)]
      simp only [List.append_assoc] at this ⊢
      rw [← this]
      rfl

theorem lowerHexDigit_ne_newline (d : Nat) : lowerHexDigit d ≠ '\n' := by
  by_cases h : d < 16
  · have : ∀ e : Fin 16, lowerHexDigit e.val ≠ '\n' := by decide
    exact this ⟨d, h⟩
  · have : lowerHexDigit d = '0' := by
      unfold lowerHexDigit
      exact List.getD_eq_default _ _ (by simpa using h)
    rw [this]; decide

theorem row_text_no_newline (r : List Byte) : '\n' ∉ row_text r := by
  induction r with
  | nil => simp [row_text, List.intercalate]
  | cons c cs ih =>
    have hc : '\n' ∉ byte_entry c := by
      simp only [byte_entry, List.mem_cons, List.mem_singleton, not_or, List.not_mem_nil,
        or_false]
      exact ⟨by decide, by decide, (lowerHexDigit_ne_newline _).symm,
        (lowerHexDigit_ne_newline _).symm⟩
    cases cs with
    | nil => simpa [row_text, intercalate_single] using hc
    | cons d ds =>
      have : row_text (c :: d :: ds) = byte_entry c ++ ", ".toList ++ row_text (d :: ds) := by
        simp only [row_text, List.map_cons, intercalate_cons_cons]
      rw [this]
      simp only [List.mem_append, not_or]
      exact ⟨⟨hc, by decide⟩, ih⟩

theorem row_text_getLast (r : List Byte) (h : r ≠ []) :
    ∃ pre, row_text r = pre ++ byte_entry (r.getLast h) := by
  induction r with
  | nil => exact absurd rfl h
  | cons c cs ih =>
    cases cs with
    | nil => exact ⟨[], by simp [row_text, intercalate_single]⟩
    | cons d ds =>
      obtain ⟨pre, hpre⟩ := ih (by simp)
      refine ⟨byte_entry c ++ ", ".toList ++ pre, ?_⟩
      have : row_text (c :: d :: ds) = byte_entry c ++ ", ".toList ++ row_text (d :: ds) := by
        simp only [row_text, List.map_cons, intercalate_cons_cons]
      rw [this, hpre, List.getLast_cons_cons]
      simp only [List.append_assoc]

theorem getLast_of_append_eq {α : Type} (xs ys b : List α) (h : xs ++ ys = b) (hys : ys ≠ [])
    (hb : b ≠ []) : b.getLast hb = ys.getLast hys := by
  subst h
  exact List.getLast_append_of_ne_nil hys

/-- The lines of hexadecimal values of the text written for a non-empty input. -/
theorem hex_lines_of_text (v : List Char) (b : List Byte) (hb : b ≠ []) :
    ∃ (full : List (List Byte)) (last : List Byte),
      full.flatten ++ last = b ∧
      (∀ r ∈ full, r.length = 12) ∧ 1 ≤ last.length ∧ last.length ≤ 12 ∧
      full.length + 1 = (b.length + 11) / 12 ∧
      generate_source_text v b =
        "char ".toList ++ v ++ "[".toList ++ fmt_zu b.length ++ "] = \x7b\n".toList ++
        (full.map (fun r => "    ".toList ++ row_text r ++ ",\n".toList)).flatten ++
        "    ".toList ++ row_text last ++ "\n\x7d;\n".toList ∧
      (∀ r : List Byte, '\n' ∉ row_text r) ∧
      (∃ pre, row_text last = pre ++ byte_entry (b.getLast hb)) ∧
      (b.length = 12 → full = []) ∧ (b.length = 13 → full.length = 1) := by
  obtain ⟨g1, g2, g3, g4⟩ := groupsOf_spec 12 (by decide) b.length b rfl
  have hne : groupsOf 12 b ≠ [] := groupsOf_ne_nil 12 (by decide) b hb
  have hsplit := List.dropLast_append_getLast hne
  have hlast := g4 _ (List.getLast_mem hne)
  have hlast_ne : (groupsOf 12 b).getLast hne ≠ [] := List.length_pos.1 hlast.1
  have hflat : (groupsOf 12 b).dropLast.flatten ++ (groupsOf 12 b).getLast hne = b := by
    conv_rhs => rw [← g1, ← hsplit]
    simp
  have hlen : (groupsOf 12 b).dropLast.length + 1 = (b.length + 11) / 12 := by
    have e11 : b.length + 12 - 1 = b.length + 11 := by omega
    rw [e11] at g2
    rw [← g2, List.length_dropLast]
    have := List.length_pos.2 hne
    omega
  refine ⟨(groupsOf 12 b).dropLast, (groupsOf 12 b).getLast hne, hflat, g3, hlast.1, hlast.2,
    hlen, ?_, row_text_no_newline, ?_, ?_, ?_⟩
  · rw [generate_source_text_layout v b hb]
    unfold reference_layout
    have hm : (groupsOf 12 b).map row_text ≠ [] := by simpa using hne
    have := lines_shape ((groupsOf 12 b).map row_text) hm
    rw [toString_toList]
    have e : "] = \x7b\n    ".toList = "] = \x7b\n".toList ++ "    ".toList := rfl
    rw [e]
    simp only [List.append_assoc] at this ⊢
    rw [← List.append_assoc "    ".toList, this, List.getLast_map, ← List.map_dropLast,
      List.map_map]
    simp only [List.append_assoc]
    rfl
  · obtain ⟨pre, hpre⟩ := row_text_getLast _ hlast_ne
    refine ⟨pre, ?_⟩
    rw [hpre, getLast_of_append_eq _ _ b hflat hlast_ne hb]
  · intro h12
    rw [h12] at hlen
    exact List.length_eq_zero.1 (by omega)
  · intro h13
    rw [h13] at hlen
    omega




theorem isLower_bounds (c : Char) (h : c.isLower = true) : 97 ≤ c.toNat ∧ c.toNat ≤ 122 := by
  simp only [Char.isLower, Bool.and_eq_true, decide_eq_true_eq] at h
  have h1 : (97 : UInt32).toNat ≤ c.val.toNat := h.1
  have h2 : c.val.toNat ≤ (122 : UInt32).toNat := h.2
  exact ⟨h1, h2⟩

theorem isUpper_bounds (c : Char) (h : c.isUpper = true) : 65 ≤ c.toNat ∧ c.toNat ≤ 90 := by
  simp only [Char.isUpper, Bool.and_eq_true, decide_eq_true_eq] at h
  have h1 : (65 : UInt32).toNat ≤ c.val.toNat := h.1
  have h2 : c.val.toNat ≤ (90 : UInt32).toNat := h.2
  exact ⟨h1, h2⟩

theorem ofNat_sub_isUpper (n : Nat) (h1 : 97 ≤ n) (h2 : n ≤ 122) :
    (Char.ofNat (n - 32)).isUpper = true := by
  interval_cases n <;> rfl

theorem toUpper_isUpper (c : Char) (h : c.isAlpha = true) : c.toUpper.isUpper = true := by
  simp only [Char.isAlpha, Bool.or_eq_true] at h
  rcases h with h | h
  · have := isUpper_bounds c h
    have e : c.toUpper = c := by
      unfold Char.toUpper
      simp only
      rw [if_neg (by omega)]
    rw [e]; exact h
  · have := isLower_bounds c h
    unfold Char.toUpper
    simp only
    rw [if_pos ⟨this.1, this.2⟩]
    exact ofNat_sub_isUpper _ this.1 this.2

theorem guard_char_eq_spec (c : Char) : guard_char c = spec_guard_char c := by
  unfold guard_char spec_guard_char isalpha isalnum toupper
  by_cases h1 : c.isAlpha = true
  · simp [h1]
  · by_cases h2 : c.isDigit = true
    · simp [h1, h2, Char.isAlphanum]
    · simp [h1, h2, Char.isAlphanum]

theorem guard_char_alphabet (c : Char) : guard_alphabet (guard_char c) = true := by
  rw [guard_char_eq_spec]
  unfold spec_guard_char guard_alphabet
  by_cases h1 : c.isAlpha = true
  · simp [h1, toUpper_isUpper c h1]
  · by_cases h2 : c.isDigit = true
    · simp [h1, h2]
    · simp only [h1, h2, Bool.false_eq_true, if_false]; decide

/-! ### get_basename -/

theorem skip_directories_no_sep (bn : List Char) (hsep : ∀ c ∈ bn, c ≠ '/' ∧ c ≠ '\\') :
    ∀ (p start : Nat), skip_directories bn p start = start := by
  induction bn with
  | nil => intro p start; rfl
  | cons c cs ih =>
    intro p start
    have hc := hsep c (List.mem_cons_self _ _)
    have : ¬ (c = '/' ∨ c = '\\') := by tauto
    rw [skip_directories, if_neg this]
    exact ih (fun x hx => hsep x (List.mem_cons_of_mem _ hx)) _ _

theorem skip_directories_append (dir bn : List Char) :
    ∀ (p start : Nat), skip_directories (dir ++ bn) p start =
      skip_directories bn (p + dir.length) (skip_directories dir p start) := by
  induction dir with
  | nil => intro p start; rfl
  | cons c cs ih =>
    intro p start
    rw [List.cons_append, skip_directories, ih, skip_directories, List.length_cons]
    congr 1
    omega

theorem skip_directories_bounds (s : List Char) :
    ∀ (p start : Nat), start ≤ p → skip_directories s p start ≤ p + s.length := by
  induction s with
  | nil => intro p start h; simpa [skip_directories] using h
  | cons c cs ih =>
    intro p start h
    rw [skip_directories, List.length_cons]
    have := ih (p + 1) (if c = '/' ∨ c = '\\' then p + 1 else start) (by split_ifs <;> omega)
    omega

theorem skip_directories_ends_sep (d : List Char) (s : Char) (hs : s = '/' ∨ s = '\\') :
    ∀ (p start : Nat), skip_directories (d ++ [s]) p start = p + d.length + 1 := by
  intro p start
  rw [skip_directories_append]
  simp [skip_directories, hs]


theorem strip_trailing_bounds (s : List Char) (start : Nat) :
    ∀ (n m : Nat), strip_trailing s start n = some m → 0 < m ∧ m ≤ n := by
  intro n
  induction n with
  | zero => intro m h; simp [strip_trailing] at h
  | succ n ih =>
    intro m h
    rw [strip_trailing] at h
    split at h
    · exact absurd h (by simp)
    · split at h
      · have := ih m h; omega
      · simp only [Option.some.injEq] at h; omega

theorem get_basename_length_le (path b : List Char) (len : Nat)
    (h : get_basename path = some (b, len)) : 0 < len ∧ len ≤ b.length := by
  unfold get_basename at h
  simp only at h
  split at h
  · exact absurd h (by simp)
  · rename_i n hn
    simp only [Option.some.injEq, Prod.mk.injEq] at h
    have := strip_trailing_bounds _ _ _ _ hn
    rw [← h.1, ← h.2]
    exact this

/-- On a path that ends with a non-empty run `bn` of non-separators, `get_basename` returns the
text after the last separator, whole. -/
theorem get_basename_append (dir bn : List Char) (hbn : bn ≠ [])
    (hsep : ∀ c ∈ bn, c ≠ '/' ∧ c ≠ '\\') :
    get_basename (dir ++ bn) =
      some (dir.drop (skip_directories dir 0 0) ++ bn,
        (dir.drop (skip_directories dir 0 0) ++ bn).length) := by
  have hk : skip_directories dir 0 0 ≤ dir.length := by
    simpa using skip_directories_bounds dir 0 0 (le_refl 0)
  have hstart : skip_directories (dir ++ bn) 0 0 = skip_directories dir 0 0 := by
    rw [skip_directories_append, skip_directories_no_sep bn hsep]
  have hdrop : (dir ++ bn).drop (skip_directories dir 0 0) =
      dir.drop (skip_directories dir 0 0) ++ bn := List.drop_append_of_le_length hk
  obtain ⟨m, hm⟩ : ∃ m, bn.length = m + 1 :=
    ⟨bn.length - 1, by have := List.length_pos.2 hbn; omega⟩
  have hlen : (dir.drop (skip_directories dir 0 0) ++ bn).length =
      (dir.length - skip_directories dir 0 0 + m) + 1 := by
    rw [List.length_append, List.length_drop, hm]; omega
  have hget : (dir ++ bn).get? (skip_directories dir 0 0 +
      (dir.length - skip_directories dir 0 0 + m)) = some (bn.getLast hbn) := by
    have e : skip_directories dir 0 0 + (dir.length - skip_directories dir 0 0 + m) =
        dir.length + m := by omega
    rw [e, List.get?_eq_getElem?, List.getElem?_append_right (by omega),
      List.getLast_eq_getElem, Nat.add_sub_cancel_left]
    have : m = bn.length - 1 := by omega
    rw [this]
    exact List.getElem?_eq_getElem _
  have hlast := hsep _ (List.getLast_mem hbn)
  unfold get_basename
  simp only [hstart, hdrop]
  rw [hlen, strip_trailing, hget]
  simp only
  rw [if_neg (by tauto)]

theorem get_basename_last_component (dir bn : List Char) (hbn : bn ≠ [])
    (hsep : ∀ c ∈ bn, c ≠ '/' ∧ c ≠ '\\')
    (hdir : dir = [] ∨ ∃ d s, dir = d ++ [s] ∧ (s = '/' ∨ s = '\\')) :
    get_basename (dir ++ bn) = some (bn, bn.length) := by
  have hk : skip_directories dir 0 0 = dir.length := by
    rcases hdir with h | ⟨d, s, h, hs⟩
    · rw [h]; rfl
    · rw [h, skip_directories_ends_sep d s hs]; simp
  rw [get_basename_append dir bn hbn hsep, hk, List.drop_length, List.nil_append]

/-- Where the path is empty or ends with a separator, `get_basename` reads `path[-1]`. -/
theorem get_basename_undefined (path : List Char)
    (h : path = [] ∨ ∃ d s, path = d ++ [s] ∧ (s = '/' ∨ s = '\\')) :
    get_basename path = none := by
  have hk : skip_directories path 0 0 = path.length := by
    rcases h with h | ⟨d, s, h, hs⟩
    · rw [h]; rfl
    · rw [h, skip_directories_ends_sep d s hs]; simp
  unfold get_basename
  simp only [hk, List.drop_length, List.length_nil, strip_trailing]


/-! ## The claims -/

/-- C2: for every variable name and every non-empty byte sequence, the text `generate_source`
writes is the reference layout: the declaration, the bytes in groups of 12 (the last of 1 to
12), each byte as `0x` and two lowercase hexadecimal digits, entries joined by `, `, groups by a
comma, a newline and four spaces, then the closing line. -/
theorem generate_source_reference_layout (v : List Char) (b : List Byte) (hb : b ≠ []) :
    generate_source_text v b = reference_layout v b ∧
    (groupsOf 12 b).flatten = b ∧
    (∀ g ∈ (groupsOf 12 b).dropLast, g.length = 12) ∧
    (∀ g ∈ groupsOf 12 b, 1 ≤ g.length ∧ g.length ≤ 12) := by
  obtain ⟨g1, _, g3, g4⟩ := groupsOf_spec 12 (by decide) b.length b rfl
  exact ⟨generate_source_text_layout v b hb, g1, g3, g4⟩

theorem generate_source_reference_layout_witness :
    ([1, 2, 3, 4, 5, 6, 7, 8, 9, 10, 11, 12, 13] : List Byte) ≠ [] ∧
    (generate_source_text "v".toList [1, 2, 3, 4, 5, 6, 7, 8, 9, 10, 11, 12, 13] =
        reference_layout "v".toList [1, 2, 3, 4, 5, 6, 7, 8, 9, 10, 11, 12, 13] ∧
      (groupsOf 12 ([1, 2, 3, 4, 5, 6, 7, 8, 9, 10, 11, 12, 13] : List Byte)).flatten =
        [1, 2, 3, 4, 5, 6, 7, 8, 9, 10, 11, 12, 13] ∧
      (∀ g ∈ (groupsOf 12 ([1, 2, 3, 4, 5, 6, 7, 8, 9, 10, 11, 12, 13] : List Byte)).dropLast,
        g.length = 12) ∧
      (∀ g ∈ groupsOf 12 ([1, 2, 3, 4, 5, 6, 7, 8, 9, 10, 11, 12, 13] : List Byte),
        1 ≤ g.length ∧ g.length ≤ 12)) :=
  ⟨by decide, generate_source_reference_layout "v".toList
    [1, 2, 3, 4, 5, 6, 7, 8, 9, 10, 11, 12, 13] (by decide)⟩

/-- C3, byte wrapping: the text written for `n >= 1` bytes is the declaration line, then
`ceil(n / 12)` lines of hexadecimal values, of which all but the last hold exactly 12 entries
and end with a comma, and the last holds the remaining 1 to 12 entries and ends with the last
entry of the file, followed directly by the closing line; 12 bytes give one such line, 13 bytes
give two. -/
theorem generate_source_hex_lines (v : List Char) (b : List Byte) (hb : b ≠ []) :
    ∃ (full : List (List Byte)) (last : List Byte),
      full.flatten ++ last = b ∧
      (∀ r ∈ full, r.length = 12) ∧ 1 ≤ last.length ∧ last.length ≤ 12 ∧
      full.length + 1 = (b.length + 11) / 12 ∧
      generate_source_text v b =
        "char ".toList ++ v ++ "[".toList ++ fmt_zu b.length ++ "] = \x7b\n".toList ++
        (full.map (fun r => "    ".toList ++ row_text r ++ ",\n".toList)).flatten ++
        "    ".toList ++ row_text last ++ "\n\x7d;\n".toList ∧
      (∀ r : List Byte, '\n' ∉ row_text r) ∧
      (∃ pre, row_text last = pre ++ byte_entry (b.getLast hb)) ∧
      (b.length = 12 → full = []) ∧ (b.length = 13 → full.length = 1) :=
  hex_lines_of_text v b hb

theorem generate_source_hex_lines_witness :
    ([1, 2, 3, 4, 5, 6, 7, 8, 9, 10, 11, 12, 13] : List Byte) ≠ [] ∧
    ∃ (full : List (List Byte)) (last : List Byte),
      full.flatten ++ last = [1, 2, 3, 4, 5, 6, 7, 8, 9, 10, 11, 12, 13] ∧
      (∀ r ∈ full, r.length = 12) ∧ 1 ≤ last.length ∧ last.length ≤ 12 ∧
      full.length + 1 =
        (([1, 2, 3, 4, 5, 6, 7, 8, 9, 10, 11, 12, 13] : List Byte).length + 11) / 12 ∧
      generate_source_text "v".toList [1, 2, 3, 4, 5, 6, 7, 8, 9, 10, 11, 12, 13] =
        "char ".toList ++ "v".toList ++ "[".toList ++
        fmt_zu ([1, 2, 3, 4, 5, 6, 7, 8, 9, 10, 11, 12, 13] : List Byte).length ++
        "] = \x7b\n".toList ++
        (full.map (fun r => "    ".toList ++ row_text r ++ ",\n".toList)).flatten ++
        "    ".toList ++ row_text last ++ "\n\x7d;\n".toList ∧
      (∀ r : List Byte, '\n' ∉ row_text r) ∧
      (∃ pre, row_text last = pre ++ byte_entry
        (([1, 2, 3, 4, 5, 6, 7, 8, 9, 10, 11, 12, 13] : List Byte).getLast (by decide))) ∧
      (([1, 2, 3, 4, 5, 6, 7, 8, 9, 10, 11, 12, 13] : List Byte).length = 12 → full = []) ∧
      (([1, 2, 3, 4, 5, 6, 7, 8, 9, 10, 11, 12, 13] : List Byte).length = 13 →
        full.length = 1) :=
  ⟨by decide, generate_source_hex_lines "v".toList
    [1, 2, 3, 4, 5, 6, 7, 8, 9, 10, 11, 12, 13] (by decide)⟩

/-- C4, the code at a zero-byte input: `generate_source` writes the declaration up to the four
spaces after the opening brace and nothing more, so the text is not `char v[0] = ` followed by
an opening brace, a newline, the closing brace, `;` and a newline. -/
theorem generate_source_text_empty_content (v : List Char) :
    generate_source_text v [] = "char ".toList ++ v ++ "[0] = \x7b\n    ".toList ∧
    generate_source_text v [] ≠ "char ".toList ++ v ++ "[0] = \x7b\n\x7d;\n".toList := by
  have h : generate_source_text v [] = "char ".toList ++ v ++ "[0] = \x7b\n    ".toList := by
    simp [generate_source_text, source_writes, source_loop, var_fmt, fmt_zu]
    rfl
  refine ⟨h, ?_⟩
  rw [h, List.append_assoc, List.append_assoc]
  intro e
  have := List.append_cancel_left (List.append_cancel_left e)
  exact absurd this (by decide)

/-- C7: whenever `generate_include_guard` returns a guard, every character of it is in
`[A-Z0-9_]`, its first character is `_`, and its length is the basename length set by
`get_basename` plus 1. -/
theorem include_guard_invariant (malloc_fails : Bool) (header_path g : List Char)
    (h : generate_include_guard malloc_fails header_path = some (GuardResult.guard g)) :
    (∀ c ∈ g, guard_alphabet c = true) ∧ g.head? = some '_' ∧
    ∃ basename basename_length, get_basename header_path = some (basename, basename_length) ∧
      g.length = basename_length + 1 := by
  unfold generate_include_guard at h
  split at h
  · simp at h
  · rename_i basename basename_length hb
    split at h
    · simp at h
    · simp only [Option.some.injEq, GuardResult.guard.injEq] at h
      subst h
      have hl := get_basename_length_le _ _ _ hb
      refine ⟨?_, rfl, basename, basename_length, hb, ?_⟩
      · intro c hc
        rcases List.mem_cons.1 hc with hc | hc
        · rw [hc]; decide
        · obtain ⟨x, _, hx⟩ := List.mem_map.1 hc
          rw [← hx]; exact guard_char_alphabet x
      · simp only [List.length_cons, List.length_map, List.length_take]
        omega

theorem include_guard_invariant_witness :
    generate_include_guard false "foo/bar.baz.h".toList =
      some (GuardResult.guard "_BAR_BAZ_H".toList) ∧
    ((∀ c ∈ "_BAR_BAZ_H".toList, guard_alphabet c = true) ∧
      "_BAR_BAZ_H".toList.head? = some '_' ∧
      ∃ basename basename_length,
        get_basename "foo/bar.baz.h".toList = some (basename, basename_length) ∧
        "_BAR_BAZ_H".toList.length = basename_length + 1) :=
  ⟨by decide, include_guard_invariant false "foo/bar.baz.h".toList "_BAR_BAZ_H".toList
    (by decide)⟩

/-- C8, the code at paths with trailing separators: on `foo/bar/` and on `foo\bar\\` the first
loop leaves `path` at the end of the string, `name_length` is 0 and `path[name_length - 1]` is
read outside it; no basename `bar` is produced, unlike on `foo/bar`. -/
theorem get_basename_trailing_separators :
    get_basename "foo/bar/".toList = none ∧ get_basename "foo\\bar\\\\".toList = none ∧
    get_basename "foo/bar".toList = some ("bar".toList, 3) := by
  decide

/-- C9, the code at the empty path and at paths made of separators only: `get_basename` has no
error result; it reads `path[-1]`, so `generate_include_guard` and, once `fopen` has succeeded,
`generate_header` are undefined instead of failing with a message. -/
theorem get_basename_separator_only_paths :
    get_basename [] = none ∧ get_basename "/".toList = none ∧
    get_basename "\\".toList = none ∧ get_basename "//\\".toList = none ∧
    generate_include_guard false "\\".toList = none ∧
    (generate_header (sample_world []) "\\".toList "v".toList 3).isNone = true := by
  decide

/-- C12, the code on two runs that start with neither `out.h` nor `out.c`: when the second
`fprintf` of `generate_source` fails the call returns 0 with no `out.h` but with `out.c`
holding the declaration written so far; when `malloc` fails in `generate_include_guard` the
call returns 0 with an empty `out.h` and no `out.c`. -/
theorem artifact_pair_broken :
    (sample_world source_write_fails).files "out.h".toList = none ∧
    (sample_world source_write_fails).files "out.c".toList = none ∧
    (file_to_c_array (sample_world source_write_fails) "in.bin".toList "out.h".toList
      "out.c".toList "v".toList).map
        (fun r => (r.1, r.2.files "out.h".toList, r.2.files "out.c".toList)) =
      some (0, none, some (encode "char v[3] = \x7b\n    ".toList)) ∧
    (file_to_c_array (sample_world guard_malloc_fails) "in.bin".toList "out.h".toList
      "out.c".toList "v".toList).map
        (fun r => (r.1, r.2.files "out.h".toList, r.2.files "out.c".toList)) =
      some (0, some [], none) := by
  decide

/-- C17, the code on the run where no library call fails: `file_to_c_array` returns 1 and the
stream that `read_file_content` opened on `in.bin` is still open, although no stream was open
before; on the run where `fread` fails that stream is closed. -/
theorem input_stream_left_open :
    (sample_world []).streams = [] ∧
    (file_to_c_array (sample_world []) "in.bin".toList "out.h".toList "out.c".toList
      "v".toList).map (fun r => (r.1, r.2.streams)) = some (1, [(3, "in.bin".toList)]) ∧
    (file_to_c_array (sample_world [false, false, false, false, false, false, true])
      "in.bin".toList "out.h".toList "out.c".toList "v".toList).map
        (fun r => (r.1, r.2.streams)) = some (0, []) := by
  decide

/-! ### The last component of a path -/

/-- Every path is a directory part, empty or ending with a separator, followed by a run of
non-separators. -/
theorem path_split (path : List Char) :
    ∃ dir bn, path = dir ++ bn ∧ (∀ c ∈ bn, c ≠ '/' ∧ c ≠ '\\') ∧
      (dir = [] ∨ ∃ d s, dir = d ++ [s] ∧ (s = '/' ∨ s = '\\')) := by
  induction path with
  | nil => exact ⟨[], [], rfl, by simp, Or.inl rfl⟩
  | cons c cs ih =>
    obtain ⟨dir, bn, hp, hbn, hdir⟩ := ih
    rcases hdir with hd | ⟨d, s, hd, hs⟩
    · subst hd
      by_cases hc : c = '/' ∨ c = '\\'
      · exact ⟨[c], bn, by simp [hp], hbn, Or.inr ⟨[], c, rfl, hc⟩⟩
      · refine ⟨[], c :: bn, by simp [hp], ?_, Or.inl rfl⟩
        intro x hx
        rcases List.mem_cons.1 hx with hx | hx
        · rw [hx]; exact ⟨fun h => hc (Or.inl h), fun h => hc (Or.inr h)⟩
        · exact hbn x hx
    · exact ⟨c :: dir, bn, by simp [hp], hbn, Or.inr ⟨c :: d, s, by simp [hd], hs⟩⟩

/-- C18: on a non-empty path whose last character is not a separator, `get_basename` is
defined (no read outside the string), the length it stores is the whole length of the string it
returns (the trailing-separator loop stops at its first test), and that string is a non-empty
suffix of the path, free of `/` and `\`, that is the whole path or follows a separator. -/
theorem get_basename_in_bounds (path : List Char) (hne : path ≠ [])
    (hlast : path.getLast hne ≠ '/' ∧ path.getLast hne ≠ '\\') :
    ∃ b, get_basename path = some (b, b.length) ∧ b ≠ [] ∧ b <:+ path ∧
      (∀ c ∈ b, c ≠ '/' ∧ c ≠ '\\') ∧
      (b = path ∨ ∃ d s, path = d ++ [s] ++ b ∧ (s = '/' ∨ s = '\\')) := by
  obtain ⟨dir, bn, hp, hbn, hdir⟩ := path_split path
  have hbne : bn ≠ [] := by
    intro h
    subst h
    rw [List.append_nil] at hp
    rcases hdir with hd | ⟨d, s, hd, hs⟩
    · exact hne (hp.trans hd)
    · have : path.getLast hne = s := by
        subst hp; subst hd; simp
      rw [this] at hlast
      rcases hs with hs | hs
      · exact hlast.1 hs
      · exact hlast.2 hs
  refine ⟨bn, ?_, hbne, ⟨dir, hp.symm⟩, hbn, ?_⟩
  · rw [hp]; exact get_basename_last_component dir bn hbne hbn hdir
  · rcases hdir with hd | ⟨d, s, hd, hs⟩
    · left; rw [hp, hd, List.nil_append]
    · right; exact ⟨d, s, by rw [hp, hd], hs⟩

theorem get_basename_in_bounds_witness :
    ∃ (hne : "foo/bar.h".toList ≠ []),
      ("foo/bar.h".toList.getLast hne ≠ '/' ∧ "foo/bar.h".toList.getLast hne ≠ '\\') ∧
      ∃ b, get_basename "foo/bar.h".toList = some (b, b.length) ∧ b ≠ [] ∧
        b <:+ "foo/bar.h".toList ∧ (∀ c ∈ b, c ≠ '/' ∧ c ≠ '\\') ∧
        (b = "foo/bar.h".toList ∨
          ∃ d s, "foo/bar.h".toList = d ++ [s] ++ b ∧ (s = '/' ∨ s = '\\')) :=
  ⟨by decide, by decide, get_basename_in_bounds "foo/bar.h".toList (by decide) (by decide)⟩

/-! ### is_valid_ident -/

/-- C14, the code on names that are no identifiers: `is_valid_ident(s, 0)` returns 1 for `1abc`,
`0x12` and `-v`, whose first character is a digit or punctuation, so `main` passes them to
`file_to_c_array`; the branch for `enable_non_ascii` rejects the same names. -/
theorem is_valid_ident_accepts_digit_first :
    is_valid_ident "1abc".toList 0 = 1 ∧ is_valid_ident "0x12".toList 0 = 1 ∧
    is_valid_ident "-v".toList 0 = 1 ∧
    main_passes_variable "1abc".toList = true ∧ main_passes_variable "-v".toList = true ∧
    legal_identifier "1abc".toList = false ∧ ascii_identifier "1abc".toList = false ∧
    legal_identifier "-v".toList = false ∧
    is_valid_ident "1abc".toList 1 = 0 ∧ is_valid_ident "-v".toList 1 = 0 := by
  decide

/-! ### generate_source: what follows each entry -/

theorem source_loop_separators (n : Nat) (rest : List Byte) :
    ∀ (i line : Nat), line = i % 12 → i + rest.length = n →
      (source_loop n rest i line).flatten =
        ((rest.enumFrom i).map (fun e => byte_entry e.2 ++ entry_separator n e.1)).flatten := by
  induction rest with
  | nil => intro i line _ _; rfl
  | cons c cs ih =>
    intro i line hline hn
    simp only [List.length_cons] at hn
    rw [source_loop, List.enumFrom_cons, List.map_cons, List.flatten_cons, List.flatten_cons]
    have hl : line < 12 := by omega
    by_cases h1 : i + 1 = n
    · have hcs : cs = [] := List.length_eq_zero.1 (by omega)
      subst hcs
      have hs : entry_separator n i = "\n\x7d;\n".toList := by
        simp only [entry_separator, if_pos h1]
      simp only [source_entry, if_pos h1, source_loop, List.enumFrom_nil,
        List.map_nil, List.flatten_nil, List.append_nil, entry_eq, hs]
    · by_cases h2 : line = 11
      · have h3 : i % 12 = 11 := by omega
        have h4 : (2 ^ 64 - 1 + 1) % 2 ^ 64 = 0 := by decide
        have hs : entry_separator n i = ",\n    ".toList := by
          simp only [entry_separator, if_neg h1, if_pos h3]
        simp only [source_entry, if_neg h1, if_pos h2, h4, entry_eq]
        rw [ih (i + 1) 0 (by omega) (by omega), hs]
      · have h3 : ¬ i % 12 = 11 := by omega
        have h4 : (line + 1) % 2 ^ 64 = line + 1 := Nat.mod_eq_of_lt (by omega)
        have hs : entry_separator n i = ", ".toList := by
          simp only [entry_separator, if_neg h1, if_neg h3]
        simp only [source_entry, if_neg h1, if_neg h2, h4, entry_eq]
        rw [ih (i + 1) (line + 1) (by omega) (by omega), hs]

/-- C16 (amended), the separator rule: in the text written for any input, every entry but the
last is immediately followed by a comma, and then by a space, except that the 12th entry of a
line is followed by a newline and four spaces; the last entry is followed only by the closing
line. -/
theorem generate_source_separators (v : List Char) (b : List Byte) :
    generate_source_text v b = separated_layout entry_separator v b := by
  unfold generate_source_text source_writes separated_layout var_fmt
  rw [List.flatten_cons, source_loop_separators b.length b 0 0 rfl (by omega)]
  rfl

/-- C16 as stated fails: for the 13 bytes 1 to 13 the 12th entry `0x0c` is followed by a comma
and a newline, not by a comma and a space, so the text is not the one in which every entry but
the last is followed by `, `. -/
theorem generate_source_comma_space_fails :
    generate_source_text "v".toList thirteen_bytes =
      ("char v[13] = \x7b\n    0x01, 0x02, 0x03, 0x04, 0x05, 0x06, 0x07, 0x08, 0x09, 0x0a, " ++
        "0x0b, 0x0c,\n    0x0d\n\x7d;\n").toList ∧
    generate_source_text "v".toList thirteen_bytes ≠
      separated_layout comma_space_separator "v".toList thirteen_bytes := by
  decide

/-! ### add_extension -/

theorem getElem?_stem_last (stem seps : List Char) (h : stem ≠ []) :
    (stem ++ seps).get? (stem.length - 1) = some (stem.getLast h) := by
  have hl : 0 < stem.length := List.length_pos.2 h
  rw [List.get?_eq_getElem?, List.getElem?_append_left (by omega), List.getLast_eq_getElem]
  exact List.getElem?_eq_getElem _

theorem add_extension_strip_stem (stem seps : List Char) (h : stem ≠ [])
    (hlast : stem.getLast h ≠ '/' ∧ stem.getLast h ≠ '\\')
    (hseps : ∀ c ∈ seps, c = '/' ∨ c = '\\') :
    ∀ k, k ≤ seps.length →
      add_extension_strip (stem ++ seps) (stem.length - 1 + k) = some (stem.length - 1) := by
  have hl : 0 < stem.length := List.length_pos.2 h
  have hns : ¬ (stem.getLast h = '/' ∨ stem.getLast h = '\\') := by tauto
  intro k
  induction k with
  | zero =>
    intro _
    have hg := getElem?_stem_last stem seps h
    rw [Nat.add_zero]
    cases hj : stem.length - 1 with
    | zero =>
      rw [hj] at hg
      rw [add_extension_strip, hg]
      simp only [if_neg hns]
    | succ j =>
      rw [hj] at hg
      rw [add_extension_strip, hg]
      simp only [if_neg hns]
  | succ k ih =>
    intro hk
    have hidx : stem.length - 1 + (k + 1) = (stem.length - 1 + k) + 1 := by omega
    have hg : (stem ++ seps).get? ((stem.length - 1 + k) + 1) = some (seps.get ⟨k, by omega⟩) := by
      rw [List.get?_eq_getElem?, List.getElem?_append_right (by omega)]
      have : stem.length - 1 + k + 1 - stem.length = k := by omega
      rw [this]
      exact List.getElem?_eq_getElem _
    have hsep := hseps _ (List.get_mem seps k (by omega))
    rw [hidx, add_extension_strip, hg]
    simp only [if_pos hsep]
    exact ih (by omega)

theorem memcpy_after (pre old src : List Char) (h : src.length ≤ old.length) :
    memcpy (pre ++ old) pre.length src = some (pre ++ src ++ old.drop src.length) := by
  unfold memcpy
  rw [if_pos (by simp only [List.length_append]; omega), List.take_left,
    List.drop_append]

/-- The function `add_extension` on a path `stem ++ seps`, where `stem` ends with a
non-separator and `seps` holds separators only. -/
theorem add_extension_stem (stem seps ext out : List Char) (h : stem ≠ [])
    (hlast : stem.getLast h ≠ '/' ∧ stem.getLast h ≠ '\\')
    (hseps : ∀ c ∈ seps, c = '/' ∨ c = '\\') :
    add_extension (stem ++ seps) ext out =
      if stem.length + ext.length + 1 ≤ out.length then
        some (1, stem ++ ext ++ ['\x00'] ++ out.drop (stem.length + ext.length + 1))
      else if stem.length + ext.length ≤ out.length then
        some (0, stem ++ ext ++ out.drop (stem.length + ext.length))
      else if stem.length ≤ out.length then
        some (0, stem ++ out.drop stem.length)
      else some (0, out) := by
  have hl : 0 < stem.length := List.length_pos.2 h
  have hne : stem ++ seps ≠ [] := by simp [h]
  have hstrip := add_extension_strip_stem stem seps h hlast hseps seps.length (le_refl _)
  have hidx : (stem ++ seps).length - 1 = stem.length - 1 + seps.length := by
    simp only [List.length_append]; omega
  have hi : stem.length - 1 + 1 = stem.length := by omega
  unfold add_extension
  rw [if_neg hne, hidx, hstrip]
  simp only [hi, List.take_left]
  by_cases h1 : stem.length ≤ out.length
  · have m1 : memcpy out 0 stem = some (stem ++ out.drop stem.length) := by
      have := memcpy_after [] out stem h1
      simpa using this
    rw [if_neg (by omega), m1]
    simp only
    by_cases h2 : stem.length + ext.length ≤ out.length
    · have m2 : memcpy (stem ++ out.drop stem.length) stem.length ext =
          some (stem ++ ext ++ out.drop (stem.length + ext.length)) := by
        have := memcpy_after stem (out.drop stem.length) ext
          (by simp only [List.length_drop]; omega)
        rw [this, List.drop_drop]
      rw [if_neg (by omega), m2]
      simp only
      by_cases h3 : stem.length + ext.length + 1 ≤ out.length
      · have m3 : memcpy (stem ++ ext ++ out.drop (stem.length + ext.length))
            (stem.length + ext.length) ['\x00'] =
            some (stem ++ ext ++ ['\x00'] ++ out.drop (stem.length + ext.length + 1)) := by
          have := memcpy_after (stem ++ ext) (out.drop (stem.length + ext.length)) ['\x00']
            (by simp only [List.length_drop, List.length_singleton]; omega)
          simp only [List.length_append, List.length_singleton, List.drop_drop] at this
          rw [this]
        rw [if_neg (by omega), m3, if_pos h3]
      · rw [if_pos (by omega), if_neg h3, if_pos h2]
    · rw [if_pos (by omega), if_neg (by omega), if_neg h2, if_pos h1]
  · rw [if_pos (by omega), if_neg (by omega), if_neg (by omega), if_neg h1]

/-- C19: for a path that is `stem` followed by separators only, `stem` being non-empty and
ending with a non-separator, any extension and any buffer of `out_len` bytes, `add_extension`
is defined (it writes no byte outside the buffer, whose length is unchanged), it returns 1
exactly when `stem.length + ext.length + 1 <= out_len`, and then the buffer holds `stem`, the
extension and a NUL, the bytes after them untouched. -/
theorem add_extension_fits (stem seps ext out : List Char) (h : stem ≠ [])
    (hlast : stem.getLast h ≠ '/' ∧ stem.getLast h ≠ '\\')
    (hseps : ∀ c ∈ seps, c = '/' ∨ c = '\\') :
    ∃ r out', add_extension (stem ++ seps) ext out = some (r, out') ∧
      (r = 0 ∨ r = 1) ∧ out'.length = out.length ∧
      (r = 1 ↔ stem.length + ext.length + 1 ≤ out.length) ∧
      (r = 1 → out' = stem ++ ext ++ ['\x00'] ++ out.drop (stem.length + ext.length + 1)) := by
  rw [add_extension_stem stem seps ext out h hlast hseps]
  by_cases h3 : stem.length + ext.length + 1 ≤ out.length
  · rw [if_pos h3]
    refine ⟨1, _, rfl, Or.inr rfl, ?_, ⟨fun _ => h3, fun _ => rfl⟩, fun _ => rfl⟩
    simp only [List.length_append, List.length_singleton, List.length_drop]
    omega
  · rw [if_neg h3]
    by_cases h2 : stem.length + ext.length ≤ out.length
    · rw [if_pos h2]
      refine ⟨0, _, rfl, Or.inl rfl, ?_, ⟨fun e => absurd e (by decide), fun e => absurd e h3⟩,
        fun e => absurd e (by decide)⟩
      simp only [List.length_append, List.length_drop]
      omega
    · rw [if_neg h2]
      by_cases h1 : stem.length ≤ out.length
      · rw [if_pos h1]
        refine ⟨0, _, rfl, Or.inl rfl, ?_,
          ⟨fun e => absurd e (by decide), fun e => absurd e h3⟩, fun e => absurd e (by decide)⟩
        simp only [List.length_append, List.length_drop]
        omega
      · rw [if_neg h1]
        exact ⟨0, _, rfl, Or.inl rfl, rfl,
          ⟨fun e => absurd e (by decide), fun e => absurd e h3⟩, fun e => absurd e (by decide)⟩

theorem add_extension_fits_witness :
    ∃ (h : "foo/bar".toList ≠ []),
      ("foo/bar".toList.getLast h ≠ '/' ∧ "foo/bar".toList.getLast h ≠ '\\') ∧
      (∀ c ∈ "//".toList, c = '/' ∨ c = '\\') ∧
      ∃ r out', add_extension ("foo/bar".toList ++ "//".toList) ".h".toList
          (List.replicate 12 'z') = some (r, out') ∧
        (r = 0 ∨ r = 1) ∧ out'.length = (List.replicate 12 'z').length ∧
        (r = 1 ↔ "foo/bar".toList.length + ".h".toList.length + 1 ≤
          (List.replicate 12 'z').length) ∧
        (r = 1 → out' = "foo/bar".toList ++ ".h".toList ++ ['\x00'] ++
          (List.replicate 12 'z').drop ("foo/bar".toList.length + ".h".toList.length + 1)) :=
  ⟨by decide, by decide, by decide,
    add_extension_fits "foo/bar".toList "//".toList ".h".toList (List.replicate 12 'z')
      (by decide) (by decide) (by decide)⟩

/-! ### The tokens of the source text -/

theorem hexTokensAux_delim (word : List Char) (c : Char) (cs : List Char)
    (h : is_word_char c = false) :
    hexTokensAux word (c :: cs) = word_tokens word ++ hexTokensAux [] cs := by
  simp [hexTokensAux, h]

theorem hexTokensAux_word (u rest : List Char) (h : ∀ c ∈ u, is_word_char c = true) :
    ∀ word, hexTokensAux word (u ++ rest) = hexTokensAux (word ++ u) rest := by
  induction u with
  | nil => intro word; simp
  | cons c cs ih =>
    intro word
    have hc := h c (List.mem_cons_self _ _)
    rw [List.cons_append, hexTokensAux, if_pos hc, ih (fun x hx => h x (List.mem_cons_of_mem _ hx))]
    simp

theorem hexTokensAux_delims (d rest : List Char) (h : ∀ c ∈ d, is_word_char c = false) :
    hexTokensAux [] (d ++ rest) = hexTokensAux [] rest := by
  induction d with
  | nil => rfl
  | cons c cs ih =>
    rw [List.cons_append, hexTokensAux_delim _ _ _ (h c (List.mem_cons_self _ _)),
      ih (fun x hx => h x (List.mem_cons_of_mem _ hx))]
    rfl

theorem digitChar_word (d : Fin 16) : is_word_char (Nat.digitChar d.val) = true := by
  revert d; decide

/-- One entry followed by a separator made of non-word characters gives one token, the byte. -/
theorem hexTokensAux_entry (c : Byte) (d : Char) (ds rest : List Char)
    (hd : ∀ x ∈ d :: ds, is_word_char x = false) :
    hexTokensAux [] ("0x".toList ++ fmt_02x c.val ++ (d :: ds) ++ rest) =
      c.val :: hexTokensAux [] rest := by
  have h1 : c.val / 16 < 16 := by have := c.isLt; omega
  have h2 : c.val % 16 < 16 := by omega
  have e1 := hexVal_digitChar ⟨c.val / 16, h1⟩
  have e2 := hexVal_digitChar ⟨c.val % 16, h2⟩
  have w1 := digitChar_word ⟨c.val / 16, h1⟩
  have w2 := digitChar_word ⟨c.val % 16, h2⟩
  simp only at e1 e2 w1 w2
  have hv : 16 * (c.val / 16) + c.val % 16 = c.val := by omega
  have hw : ∀ x ∈ "0x".toList ++ fmt_02x c.val, is_word_char x = true := by
    intro x hx
    rw [fmt_02x_byte] at hx
    simp only [String.toList, List.cons_append, List.nil_append, List.mem_cons,
      List.mem_singleton, List.not_mem_nil, or_false] at hx
    rcases hx with hx | hx | hx | hx
    · rw [hx]; decide
    · rw [hx]; decide
    · rw [hx]; exact w1
    · rw [hx]; exact w2
  rw [List.append_assoc, hexTokensAux_word _ _ hw, List.nil_append, List.cons_append,
    hexTokensAux_delim _ _ _ (hd d (List.mem_cons_self _ _)),
    hexTokensAux_delims ds rest (fun x hx => hd x (List.mem_cons_of_mem _ hx))]
  have : word_tokens ("0x".toList ++ fmt_02x c.val) = [c.val] := by
    rw [fmt_02x_byte]
    simp [word_tokens, word_value, e1, e2, hv]
  rw [this]
  rfl

theorem hexTokens_source_loop (n : Nat) (rest : List Byte) (i line : Nat) :
    hexTokensAux [] (source_loop n rest i line).flatten = rest.map Fin.val := by
  induction rest generalizing i line with
  | nil => rfl
  | cons c cs ih =>
    simp only [source_loop, List.flatten_cons, List.map_cons]
    unfold source_entry
    split
    · exact (hexTokensAux_entry c '\n' "\x7d;\n".toList _ (by decide)).trans (by rw [ih])
    · split
      · exact (hexTokensAux_entry c ',' "\n    ".toList _ (by decide)).trans (by rw [ih])
      · exact (hexTokensAux_entry c ',' " ".toList _ (by decide)).trans (by rw [ih])

theorem fmt_zu_digits (n : Nat) : ∀ c ∈ fmt_zu n, c.isDigit = true := by
  obtain ⟨l, _, hl2, _, hl4⟩ := toDigitsCore_ten (n + 1) n (Nat.lt_succ_self n)
  have e : fmt_zu n = l := by simpa [fmt_zu, Nat.toDigits] using hl4 []
  rw [e]; exact hl2

theorem isDigit_word (c : Char) (h : c.isDigit = true) : is_word_char c = true := by
  simp [is_word_char, Char.isAlphanum, h]

theorem word_tokens_digits (ds : List Char) (h : ∀ c ∈ ds, c.isDigit = true) :
    word_tokens ds = [] := by
  have hx : ∀ c, c.isDigit = true → c ≠ 'x' := by
    intro c hc e; rw [e] at hc; exact absurd hc (by decide)
  unfold word_tokens word_value
  split
  · rename_i n hn
    split at hn
    · rename_i c0 c1 a b
      have := hx c1 (h c1 (by simp))
      simp [this] at hn
    · simp at hn
  · rfl

theorem word_tokens_identifier (v : List Char) (h : legal_identifier v = true) :
    (∀ c ∈ v, is_word_char c = true) ∧ word_tokens v = [] := by
  cases v with
  | nil => simp [legal_identifier] at h
  | cons c0 rest =>
    simp only [legal_identifier, Bool.and_eq_true, List.all_eq_true] at h
    have h0 : c0 ≠ '0' := by
      intro e; rw [e] at h; exact absurd h.1 (by decide)
    refine ⟨?_, ?_⟩
    · intro c hc
      rcases List.mem_cons.1 hc with hc | hc
      · rw [hc]
        have := h.1
        simp only [Bool.or_eq_true, decide_eq_true_eq, Bool.not_eq_true'] at this
        simp only [is_word_char, Char.isAlphanum, Bool.or_eq_true, decide_eq_true_eq,
          Bool.not_eq_true']
        tauto
      · exact h.2 c hc
    · unfold word_tokens word_value
      split
      · rename_i n hn
        split at hn
        · rename_i a1 c1 a b heq
          simp only [List.cons.injEq] at heq
          have : a1 ≠ '0' := heq.1 ▸ h0
          simp [this] at hn
        · simp at hn
      · rfl

/-- The declaration that precedes the entries holds no token when the name is an identifier. -/
theorem hexTokensAux_declaration (v : List Char) (n : Nat) (body : List Char)
    (hv : legal_identifier v = true) :
    hexTokensAux [] (var_fmt v n ++ body) = hexTokensAux [] body := by
  obtain ⟨hw, ht⟩ := word_tokens_identifier v hv
  have hd := fmt_zu_digits n
  unfold var_fmt
  have e : "char ".toList ++ v ++ "[".toList ++ fmt_zu n ++ "] = \x7b\n    ".toList ++ body =
      "char".toList ++ (' ' :: (v ++ ('[' :: (fmt_zu n ++ (']' :: (" = \x7b\n    ".toList ++
        body)))))) := by
    simp
  have hchar : word_tokens "char".toList = [] := by decide
  rw [e, hexTokensAux_word _ _ (by decide), List.nil_append,
    hexTokensAux_delim _ _ _ (by decide), hchar, List.nil_append,
    hexTokensAux_word _ _ hw, List.nil_append,
    hexTokensAux_delim _ _ _ (by decide), ht, List.nil_append,
    hexTokensAux_word _ _ (fun c hc => isDigit_word c (hd c hc)), List.nil_append,
    hexTokensAux_delim _ _ _ (by decide), word_tokens_digits _ hd, List.nil_append,
    hexTokensAux_delims _ _ (by decide)]

/-- The round trip: the entries that follow the declaration, whatever the name, and the whole
text when the name is an identifier. -/
theorem round_trip_of_text (v : List Char) (b : List Byte) :
    (∃ size body, generate_source_text v b =
        "char ".toList ++ v ++ "[".toList ++ size ++ "] = \x7b\n    ".toList ++ body ∧
      decimalValue size = some b.length ∧ hexTokens body = b.map Fin.val ∧
      (hexTokens body).length = b.length) ∧
    (legal_identifier v = true →
      hexTokens (generate_source_text v b) = b.map Fin.val ∧
      (hexTokens (generate_source_text v b)).length = b.length) := by
  have hbody : hexTokens (source_loop b.length b 0 0).flatten = b.map Fin.val :=
    hexTokens_source_loop _ _ _ _
  refine ⟨⟨fmt_zu b.length, (source_loop b.length b 0 0).flatten, ?_, decimalValue_fmt_zu _,
    hbody, by rw [hbody, List.length_map]⟩, ?_⟩
  · simp [generate_source_text, source_writes, var_fmt]
  · intro hv
    have : hexTokens (generate_source_text v b) = b.map Fin.val := by
      unfold hexTokens generate_source_text source_writes
      rw [List.flatten_cons, hexTokensAux_declaration v _ _ hv]
      exact hbody
    exact ⟨this, by rw [this, List.length_map]⟩

/-! ### Claim on the round trip -/

/-- C1, the round trip: for every variable name and every byte sequence `b`, the text that
`generate_source` writes is the declaration, which carries between its brackets the decimal
numeral of the length of `b`, followed by entries whose `0xNN` tokens are, in order, exactly
the bytes of `b`, as many as `b` has; and when the name is an identifier these are all the
`0xNN` tokens of the whole text. -/
theorem generate_source_round_trip (v : List Char) (b : List Byte) :
    (∃ size body, generate_source_text v b =
        "char ".toList ++ v ++ "[".toList ++ size ++ "] = \x7b\n    ".toList ++ body ∧
      decimalValue size = some b.length ∧ hexTokens body = b.map Fin.val ∧
      (hexTokens body).length = b.length) ∧
    (legal_identifier v = true →
      hexTokens (generate_source_text v b) = b.map Fin.val ∧
      (hexTokens (generate_source_text v b)).length = b.length) :=
  round_trip_of_text v b

theorem generate_source_round_trip_witness :
    legal_identifier "data".toList = true ∧
    hexTokens (generate_source_text "data".toList [0xde, 0xad]) =
      ([0xde, 0xad] : List Byte).map Fin.val ∧
    (hexTokens (generate_source_text "data".toList [0xde, 0xad])).length =
      ([0xde, 0xad] : List Byte).length :=
  ⟨by decide, (generate_source_round_trip "data".toList [0xde, 0xad]).2 (by decide)⟩

/-! ### The library calls -/

theorem next_fault_fields (w : World) :
    (next_fault w).2.files = w.files ∧ (next_fault w).2.resolve = w.resolve ∧
    (next_fault w).2.streams = w.streams ∧ (next_fault w).2.pending = w.pending ∧
    (next_fault w).2.next_handle = w.next_handle ∧
    (next_fault w).2.error_msg = w.error_msg ∧
    (next_fault w).2.silent_faults = w.silent_faults := by
  unfold next_fault
  cases w.faults <;> simp

theorem next_fault_files (w : World) : (next_fault w).2.files = w.files :=
  (next_fault_fields w).1

theorem next_fault_resolve (w : World) : (next_fault w).2.resolve = w.resolve :=
  (next_fault_fields w).2.1

theorem next_fault_streams (w : World) : (next_fault w).2.streams = w.streams :=
  (next_fault_fields w).2.2.1

theorem next_fault_pending (w : World) : (next_fault w).2.pending = w.pending :=
  (next_fault_fields w).2.2.2.1

theorem next_fault_error_msg (w : World) : (next_fault w).2.error_msg = w.error_msg :=
  (next_fault_fields w).2.2.2.2.2.1

theorem next_fault_silent (w : World) : (next_fault w).2.silent_faults = w.silent_faults :=
  (next_fault_fields w).2.2.2.2.2.2

theorem next_fault_nil (w : World) (h : w.faults = []) : next_fault w = (false, w) := by
  unfold next_fault; rw [h]

theorem next_silent_fault_fields (w : World) :
    (next_silent_fault w).2.files = w.files ∧ (next_silent_fault w).2.resolve = w.resolve ∧
    (next_silent_fault w).2.streams = w.streams ∧ (next_silent_fault w).2.pending = w.pending ∧
    (next_silent_fault w).2.error_msg = w.error_msg ∧
    (next_silent_fault w).2.faults = w.faults := by
  unfold next_silent_fault
  cases w.silent_faults <;> simp

theorem next_silent_fault_nil (w : World) (h : w.silent_faults = []) :
    next_silent_fault w = (false, w) := by
  unfold next_silent_fault; rw [h]

theorem next_silent_fault_congr (w w2 : World) (h : w2.silent_faults = w.silent_faults) :
    (next_silent_fault w2).1 = (next_silent_fault w).1 := by
  unfold next_silent_fault
  rw [h]
  cases w.silent_faults <;> rfl

theorem stream_path_next_fault (w : World) (fp : Nat) :
    stream_path (next_fault w).2 fp = stream_path w fp := by
  unfold stream_path; rw [next_fault_streams]

theorem stream_path_next_silent_fault (w : World) (fp : Nat) :
    stream_path (next_silent_fault w).2 fp = stream_path w fp := by
  unfold stream_path; rw [(next_silent_fault_fields w).2.2.1]

/-- What `fclose` leaves unchanged. -/
theorem fclose_fields (w : World) (fp : Nat) :
    (fclose w fp).error_msg = w.error_msg ∧ (fclose w fp).resolve = w.resolve ∧
    (fclose w fp).streams = w.streams.filter (fun s => s.1 ≠ fp) ∧
    (fclose w fp).faults = w.faults := by
  obtain ⟨_, h2, h3, _, h5, h6⟩ := next_silent_fault_fields w
  unfold fclose
  simp only
  split
  · exact ⟨h5, h2, by rw [h3], h6⟩
  · split
    · exact ⟨h5, h2, by rw [h3], h6⟩
    · exact ⟨h5, h2, by rw [h3], h6⟩

theorem fclose_error_msg (w : World) (fp : Nat) : (fclose w fp).error_msg = w.error_msg :=
  (fclose_fields w fp).1

/-- The call `fclose` changes no file but the one of its stream. -/
theorem fclose_files_of_ne (w : World) (fp : Nat) (q : List Char)
    (hq : ∀ p, stream_path w fp = some p → q ≠ w.resolve p) :
    (fclose w fp).files q = w.files q := by
  obtain ⟨h1, h2, _⟩ := next_silent_fault_fields w
  unfold fclose
  simp only
  split
  · rw [h1]
  · split
    · rw [h1]
    · rename_i path hp
      rw [stream_path_next_silent_fault] at hp
      have := hq path hp
      simp only [h2, this, if_false, h1]

/-- The call `fclose` neither creates nor removes a file. -/
theorem fclose_files_isSome (w : World) (fp : Nat) (q : List Char) :
    ((fclose w fp).files q).isSome = (w.files q).isSome := by
  obtain ⟨h1, _⟩ := next_silent_fault_fields w
  unfold fclose
  simp only
  split
  · rw [h1]
  · split
    · rw [h1]
    · simp only [h1]
      split
      · cases w.files q <;> rfl
      · rfl

/-- What `unlink` leaves unchanged. -/
theorem unlink_fields (w : World) (p : List Char) :
    (unlink w p).error_msg = w.error_msg ∧ (unlink w p).resolve = w.resolve ∧
    (unlink w p).streams = w.streams ∧ (unlink w p).faults = w.faults := by
  obtain ⟨_, h2, h3, _, h5, h6⟩ := next_silent_fault_fields w
  unfold unlink
  simp only
  split
  · exact ⟨h5, h2, h3, h6⟩
  · exact ⟨h5, h2, h3, h6⟩

theorem unlink_files_of_ne (w : World) (p q : List Char) (hq : q ≠ w.resolve p) :
    (unlink w p).files q = w.files q := by
  obtain ⟨h1, h2, _⟩ := next_silent_fault_fields w
  unfold unlink
  simp only
  split
  · rw [h1]
  · simp only [h2, hq, if_false, h1]

/-- A successful `unlink` removes the file that the path denotes. -/
theorem unlink_removes (w : World) (p : List Char) (h : (next_silent_fault w).1 = false) :
    (unlink w p).files (w.resolve p) = none := by
  obtain ⟨_, h2, _⟩ := next_silent_fault_fields w
  unfold unlink
  simp only [h, Bool.false_eq_true, if_false, h2, if_true]

/-- A failed `unlink` leaves every file as it was. -/
theorem unlink_failed (w : World) (p : List Char) (h : (next_silent_fault w).1 = true) :
    (unlink w p).files = w.files := by
  obtain ⟨h1, _⟩ := next_silent_fault_fields w
  unfold unlink
  simp only [h, if_true, h1]

theorem fprintf_fields (w w2 : World) (fp : Nat) (text : List Char) (r : Bool)
    (h : fprintf w fp text = (r, w2)) :
    w2.files = w.files ∧ w2.resolve = w.resolve ∧ w2.streams = w.streams ∧
    w2.error_msg = w.error_msg ∧ w2.silent_faults = w.silent_faults := by
  obtain ⟨h1, h2, h3, _, _, h6, h7⟩ := next_fault_fields w
  unfold fprintf at h
  simp only at h
  split at h
  · simp only [Prod.mk.injEq] at h
    rw [← h.2]; exact ⟨h1, h2, h3, h6, h7⟩
  · simp only [Prod.mk.injEq] at h
    rw [← h.2]; exact ⟨h1, h2, h3, h6, h7⟩

theorem fopen_w_some (w w1 : World) (p : List Char) (fp : Nat)
    (h : fopen_w w p = (some fp, w1)) :
    w1.files (w.resolve p) = some [] ∧ (∀ q, q ≠ w.resolve p → w1.files q = w.files q) ∧
    w1.resolve = w.resolve ∧ w1.streams = (fp, p) :: w.streams ∧
    stream_path w1 fp = some p ∧ w1.pending fp = [] ∧
    w1.silent_faults = w.silent_faults := by
  obtain ⟨h1, h2, h3, _, _, _, h7⟩ := next_fault_fields w
  unfold fopen_w at h
  simp only at h
  split at h
  · simp at h
  · simp only [Prod.mk.injEq, Option.some.injEq] at h
    obtain ⟨e1, e2⟩ := h
    subst e2
    subst e1
    refine ⟨by simp [h2], fun q hq => by simp [h2, hq, h1], h2, by simp [h3], ?_, by simp, h7⟩
    simp [stream_path]

theorem fopen_w_none (w w1 : World) (p : List Char) (h : fopen_w w p = (none, w1)) :
    w1.files = w.files ∧ w1.resolve = w.resolve ∧ w1.streams = w.streams := by
  obtain ⟨h1, h2, h3, _⟩ := next_fault_fields w
  unfold fopen_w at h
  simp only at h
  split at h
  · simp only [Prod.mk.injEq, true_and] at h
    rw [← h]; exact ⟨h1, h2, h3⟩
  · simp at h


/-! ### The error message -/

theorem error_text_ne_nil (a b : List Char) (h : a ≠ []) : error_text (a ++ b) ≠ [] := by
  cases a with
  | nil => exact absurd rfl h
  | cons c cs => simp [error_text]

theorem SET_ERROR_msg (w : World) (a b : List Char) (h : a ≠ []) :
    (SET_ERROR w (a ++ b)).error_msg ≠ [] := error_text_ne_nil a b h

theorem SET_ERROR_ERRNO_msg (w : World) (a b : List Char) (h : a ≠ []) :
    (SET_ERROR_ERRNO w (a ++ b)).error_msg ≠ [] := by
  unfold SET_ERROR_ERRNO SET_ERROR
  simp only [List.append_assoc]
  exact error_text_ne_nil a _ h

theorem generate_include_guard_null (malloc_fails : Bool) (p msg : List Char)
    (h : generate_include_guard malloc_fails p = some (GuardResult.null msg)) : msg ≠ [] := by
  unfold generate_include_guard at h
  split at h
  · simp at h
  · split at h
    · simp only [Option.some.injEq, GuardResult.null.injEq] at h
      rw [← h, List.append_assoc]
      exact error_text_ne_nil _ _ (by decide)
    · simp at h

theorem generate_include_guard_none (malloc_fails : Bool) (p : List Char) :
    generate_include_guard malloc_fails p = none ↔ get_basename p = none := by
  unfold generate_include_guard
  split
  · rename_i h; simp [h]
  · rename_i b n h
    split <;> simp [h]

theorem read_file_content_failure (w w1 : World) (p : List Char)
    (h : read_file_content w p = (none, w1)) : w1.error_msg ≠ [] := by
  unfold read_file_content at h
  split at h
  · simp only [Prod.mk.injEq, true_and] at h
    rw [← h]; exact SET_ERROR_ERRNO_msg _ _ _ (by decide)
  · split at h
    · simp only [Prod.mk.injEq, true_and] at h
      rw [← h, fclose_error_msg]
      exact SET_ERROR_ERRNO_msg _ _ _ (by decide)
    · simp only at h
      split at h
      · simp only [Prod.mk.injEq, true_and] at h
        rw [← h, fclose_error_msg, List.append_assoc]
        exact SET_ERROR_msg _ _ _ (by decide)
      · split at h
        · simp only [Prod.mk.injEq, true_and] at h
          rw [← h, fclose_error_msg]
          exact SET_ERROR_msg _ _ _ (by decide)
        · simp at h

theorem generate_header_result (w w' : World) (p v : List Char) (n r : Nat)
    (h : generate_header w p v n = some (r, w')) :
    (r = 0 ∧ w'.error_msg ≠ []) ∨ r = 1 := by
  unfold generate_header at h
  split at h
  · simp only [Option.some.injEq, Prod.mk.injEq] at h
    left; refine ⟨h.1.symm, ?_⟩
    rw [← h.2]; exact SET_ERROR_ERRNO_msg _ _ _ (by decide)
  · simp only at h
    split at h
    · simp at h
    · rename_i msg hg
      simp only [Option.some.injEq, Prod.mk.injEq] at h
      left; refine ⟨h.1.symm, ?_⟩
      rw [← h.2, fclose_error_msg]
      exact generate_include_guard_null _ _ _ hg
    · split at h
      · simp only [Option.some.injEq, Prod.mk.injEq] at h
        left; refine ⟨h.1.symm, ?_⟩
        rw [← h.2, (unlink_fields _ _).1, fclose_error_msg]
        exact SET_ERROR_ERRNO_msg _ _ _ (by decide)
      · simp only [Option.some.injEq, Prod.mk.injEq] at h
        right; exact h.1.symm

theorem write_all_result (source_path : List Char) (fp : Nat) (texts : List (List Char)) :
    ∀ (w w' : World) (r : Nat), write_all source_path fp w texts = (r, w') →
      (r = 0 ∧ w'.error_msg ≠ []) ∨ r = 1 := by
  induction texts with
  | nil =>
    intro w w' r h
    simp only [write_all, Prod.mk.injEq] at h
    right; exact h.1.symm
  | cons t ts ih =>
    intro w w' r h
    rw [write_all] at h
    split at h
    · simp only [Prod.mk.injEq] at h
      left; refine ⟨h.1.symm, ?_⟩
      rw [← h.2, fclose_error_msg]
      exact SET_ERROR_ERRNO_msg _ _ _ (by decide)
    · exact ih _ _ _ h

theorem generate_source_result (w w' : World) (p v : List Char) (b : List Byte) (r : Nat)
    (h : generate_source w p v b = (r, w')) :
    (r = 0 ∧ w'.error_msg ≠ []) ∨ r = 1 := by
  unfold generate_source at h
  split at h
  · simp only [Prod.mk.injEq] at h
    left; refine ⟨h.1.symm, ?_⟩
    rw [← h.2]; exact SET_ERROR_ERRNO_msg _ _ _ (by decide)
  · exact write_all_result _ _ _ _ _ _ h

theorem generate_header_defined (w : World) (p v : List Char) (n : Nat)
    (h : get_basename p ≠ none) : ∃ r w', generate_header w p v n = some (r, w') := by
  unfold generate_header
  split
  · exact ⟨_, _, rfl⟩
  · simp only
    split
    · rename_i hg
      exact absurd ((generate_include_guard_none _ _).1 hg) h
    · exact ⟨_, _, rfl⟩
    · split <;> exact ⟨_, _, rfl⟩

theorem file_to_c_array_result (w w' : World)
    (file_path header_path source_path var_name : List Char) (r : Nat)
    (h : file_to_c_array w file_path header_path source_path var_name = some (r, w')) :
    (r = 0 ∧ w'.error_msg ≠ []) ∨ (r = 1 ∧ w'.error_msg = []) := by
  unfold file_to_c_array at h
  split at h
  · rename_i w1 hr
    simp only [Option.some.injEq, Prod.mk.injEq] at h
    left
    rw [← h.1, ← h.2]
    exact ⟨rfl, read_file_content_failure _ _ _ hr⟩
  · rename_i file_content w1 hr
    split at h
    · simp at h
    · rename_i w2 hh
      simp only [Option.some.injEq, Prod.mk.injEq] at h
      left
      rw [← h.1, ← h.2]
      refine ⟨rfl, ?_⟩
      rcases generate_header_result _ _ _ _ _ _ hh with hx | hx
      · exact hx.2
      · exact absurd hx (by decide)
    · rename_i x w2 hx hh
      split at h
      · rename_i w3 hs
        simp only [Option.some.injEq, Prod.mk.injEq] at h
        left
        rw [← h.1, ← h.2]
        refine ⟨rfl, ?_⟩
        rcases generate_source_result _ _ _ _ _ _ hs with hy | hy
        · rw [(unlink_fields _ _).1]; exact hy.2
        · exact absurd hy (by decide)
      · simp only [Option.some.injEq, Prod.mk.injEq] at h
        right
        rw [← h.1, ← h.2]
        exact ⟨rfl, rfl⟩


/-! ### What the calls leave unchanged -/

theorem get_file_size_frame (w w2 : World) (fp : Nat) (x : Option Nat)
    (h : get_file_size w fp = (x, w2)) :
    w2.files = w.files ∧ w2.resolve = w.resolve ∧ w2.streams = w.streams := by
  unfold get_file_size at h
  simp only at h
  split at h
  · simp only [Prod.mk.injEq] at h
    rw [← h.2]; exact ⟨next_fault_files _, next_fault_resolve _, next_fault_streams _⟩
  · split at h
    · simp only [Prod.mk.injEq] at h
      rw [← h.2]
      simp only [next_fault_files, next_fault_resolve, next_fault_streams, and_self]
    · split at h
      · simp only [Prod.mk.injEq] at h
        rw [← h.2]
        simp only [next_fault_files, next_fault_resolve, next_fault_streams, and_self]
      · split at h
        · simp only [Prod.mk.injEq] at h
          rw [← h.2]
          simp only [next_fault_files, next_fault_resolve, next_fault_streams, and_self]
        · split at h <;>
          · simp only [Prod.mk.injEq] at h
            rw [← h.2]
            simp only [next_fault_files, next_fault_resolve, next_fault_streams, and_self]

theorem read_file_content_success_frame (w w1 : World) (p : List Char) (c : List Byte)
    (h : read_file_content w p = (some c, w1)) :
    w1.files = w.files ∧ w1.resolve = w.resolve ∧ ∃ fp, w1.streams = (fp, p) :: w.streams := by
  unfold read_file_content at h
  split at h
  · simp at h
  · rename_i fp w0 hopen
    have ho : w0.files = w.files ∧ w0.resolve = w.resolve ∧
        w0.streams = (fp, p) :: w.streams := by
      unfold fopen_rb at hopen
      simp only at hopen
      split at hopen
      · simp at hopen
      · simp only [Prod.mk.injEq, Option.some.injEq] at hopen
        rw [← hopen.2, ← hopen.1]
        simp only [next_fault_files, next_fault_resolve, next_fault_streams, and_self]
    split at h
    · simp at h
    · rename_i size w2 hsize
      have hs := get_file_size_frame _ _ _ _ hsize
      simp only at h
      split at h
      · simp at h
      · split at h
        · simp at h
        · simp only [Prod.mk.injEq] at h
          rw [← h.2]
          simp only [next_fault_files, next_fault_resolve, next_fault_streams, hs.1, hs.2.1,
            hs.2.2, ho.1, ho.2.1, ho.2.2, true_and]
          exact ⟨fp, rfl⟩

theorem mem_filter_cons_of_fst (fp : Nat) (p : List Char) (l : List (Nat × List Char))
    (s : Nat × List Char) (h : s ∈ ((fp, p) :: l).filter (fun s => s.1 ≠ fp)) : s ∈ l := by
  simp only [List.filter_cons, ne_eq, not_true_eq_false, decide_False, Bool.false_eq_true,
    if_false] at h
  exact (List.mem_filter.1 h).1

/-- A failing `generate_header` touches no file but the one that the header path denotes and
leaves no stream open that was not open before. -/
theorem generate_header_failure_frame (w w' : World) (p v : List Char) (n : Nat)
    (h : generate_header w p v n = some (0, w')) :
    (∀ q, q ≠ w.resolve p → w'.files q = w.files q) ∧ (∀ s ∈ w'.streams, s ∈ w.streams) := by
  unfold generate_header at h
  split at h
  · rename_i w1 hopen
    simp only [Option.some.injEq, Prod.mk.injEq, true_and] at h
    have := fopen_w_none _ _ _ hopen
    rw [← h]
    simp only [SET_ERROR_ERRNO, SET_ERROR, this.1, this.2.2]
    exact ⟨fun _ _ => trivial, fun _ hs => hs⟩
  · rename_i fp w1 hopen
    obtain ⟨_, hf, hres, hst, hsp, _, _⟩ := fopen_w_some _ _ _ _ hopen
    simp only at h
    split at h
    · simp at h
    · simp only [Option.some.injEq, Prod.mk.injEq, true_and] at h
      rw [← h]
      refine ⟨fun q hq => ?_, fun s hs => ?_⟩
      · rw [fclose_files_of_ne _ _ q]
        · simp only [next_fault_files]; exact hf q hq
        · intro p2 hp2
          have e : stream_path w1 fp = some p2 := by
            rw [← stream_path_next_fault]; exact hp2
          rw [hsp] at e
          simp only [Option.some.injEq] at e
          rw [← e]
          simp only [next_fault_resolve, hres]
          exact hq
      · rw [(fclose_fields _ _).2.2.1] at hs
        simp only [next_fault_streams, hst] at hs
        exact mem_filter_cons_of_fst _ _ _ _ hs
    · split at h
      · rename_i w2 hw
        obtain ⟨g1, g2, g3, _, _⟩ := fprintf_fields _ _ _ _ _ hw
        simp only [Option.some.injEq, Prod.mk.injEq, true_and] at h
        rw [← h]
        have hres2 : w2.resolve = w.resolve := by
          rw [g2, next_fault_resolve, hres]
        refine ⟨fun q hq => ?_, fun s hs => ?_⟩
        · rw [unlink_files_of_ne _ _ q (by
            rw [(fclose_fields _ _).2.1]
            simp only [SET_ERROR_ERRNO, SET_ERROR, hres2]; exact hq)]
          rw [fclose_files_of_ne _ _ q]
          · simp only [SET_ERROR_ERRNO, SET_ERROR, g1, next_fault_files]; exact hf q hq
          · intro p2 hp2
            have e : stream_path w1 fp = some p2 := by
              have e2 : stream_path w2 fp = some p2 := hp2
              unfold stream_path at e2 ⊢
              rw [g3, next_fault_streams] at e2
              exact e2
            rw [hsp] at e
            simp only [Option.some.injEq] at e
            rw [← e]
            simp only [SET_ERROR_ERRNO, SET_ERROR, hres2]
            exact hq
        · rw [(unlink_fields _ _).2.2.1, (fclose_fields _ _).2.2.1] at hs
          simp only [SET_ERROR_ERRNO, SET_ERROR, g3, next_fault_streams, hst] at hs
          exact mem_filter_cons_of_fst _ _ _ _ hs
      · simp at h


/-! ### generate_header and generate_source on the file system -/

/-- When `generate_header` returns 1 the guard was computed and `fprintf` succeeded; if the
`fclose` that follows does not fail, the file that the header path denotes holds exactly the
formatted text. -/
theorem generate_header_success (w w' : World) (p v : List Char) (n : Nat)
    (h : generate_header w p v n = some (1, w')) :
    ∃ g, generate_include_guard false p = some (GuardResult.guard g) ∧
      ((next_silent_fault w).1 = false →
        w'.files (w.resolve p) = some (encode (header_fmt g v n))) := by
  unfold generate_header at h
  split at h
  · simp at h
  · rename_i fp w1 hopen
    obtain ⟨hf0, _, hres, _, hsp, hpend, hsil⟩ := fopen_w_some _ _ _ _ hopen
    simp only at h
    split at h
    · simp at h
    · simp at h
    · rename_i g hg
      have hm : (next_fault w1).1 = false := by
        cases hb : (next_fault w1).1
        · rfl
        · rw [hb] at hg
          unfold generate_include_guard at hg
          split at hg <;> simp at hg
      rw [hm] at hg
      refine ⟨g, hg, ?_⟩
      intro hok
      split at h
      · simp at h
      · rename_i w2 hw
        obtain ⟨g1, g2, g3, _, g5⟩ := fprintf_fields _ _ _ _ _ hw
        have hp2 : w2.pending fp = encode (header_fmt g v n) := by
          unfold fprintf at hw
          simp only at hw
          split at hw
          · simp at hw
          · simp only [Prod.mk.injEq, true_and] at hw
            rw [← hw]
            simp only [if_true, next_fault_pending, hpend, List.nil_append]
        have hsp2 : stream_path w2 fp = some p := by
          unfold stream_path at hsp ⊢
          rw [g3, next_fault_streams]; exact hsp
        have hs2 : w2.silent_faults = w.silent_faults := by
          rw [g5, next_fault_silent, hsil]
        have hok2 : (next_silent_fault w2).1 = false := by
          rw [next_silent_fault_congr w w2 hs2]; exact hok
        simp only [Option.some.injEq, Prod.mk.injEq, true_and] at h
        rw [← h]
        unfold fclose
        simp only [hok2, Bool.false_eq_true, if_false, stream_path_next_silent_fault, hsp2,
          (next_silent_fault_fields w2).1, (next_silent_fault_fields w2).2.1,
          (next_silent_fault_fields w2).2.2.2.1, g2, next_fault_resolve, hres, if_true, g1,
          next_fault_files, hf0, hp2, Option.map_some', List.nil_append]

/-- A `fclose` that does not fail appends the pending output of the stream to its file. -/
theorem fclose_flush (w : World) (fp : Nat) (p : List Char) (hp : stream_path w fp = some p)
    (hok : (next_silent_fault w).1 = false) :
    (fclose w fp).files (w.resolve p) =
      (w.files (w.resolve p)).map (fun old => old ++ w.pending fp) := by
  obtain ⟨h1, h2, _, h4, _⟩ := next_silent_fault_fields w
  unfold fclose
  simp only [hok, Bool.false_eq_true, if_false, stream_path_next_silent_fault, hp, h1, h2, h4,
    if_true]

theorem fprintf_pending (w w2 : World) (fp : Nat) (text : List Char)
    (h : fprintf w fp text = (true, w2)) : w2.pending fp = w.pending fp ++ encode text := by
  unfold fprintf at h
  simp only at h
  split at h
  · simp at h
  · simp only [Prod.mk.injEq, true_and] at h
    rw [← h]
    simp only [if_true, next_fault_pending]

theorem write_all_success (source_path p : List Char) (fp : Nat) (texts : List (List Char)) :
    ∀ (w w' : World) (base acc : List Byte), stream_path w fp = some p →
      w.files (w.resolve p) = some base → w.pending fp = acc →
      (next_silent_fault w).1 = false →
      write_all source_path fp w texts = (1, w') →
      w'.files (w.resolve p) = some (base ++ (acc ++ encode texts.flatten)) := by
  induction texts with
  | nil =>
    intro w w' base acc hs hf hp hok h
    simp only [write_all, Prod.mk.injEq, true_and] at h
    rw [← h, fclose_flush w fp p hs hok, hf, hp]
    simp [encode]
  | cons t ts ih =>
    intro w w' base acc hs hf hp hok h
    rw [write_all] at h
    split at h
    · simp at h
    · rename_i w1 hw
      obtain ⟨g1, g2, g3, _, g5⟩ := fprintf_fields _ _ _ _ _ hw
      have hs1 : stream_path w1 fp = some p := by
        unfold stream_path at hs ⊢
        rw [g3]; exact hs
      have := ih w1 w' base (acc ++ encode t) hs1 (by rw [g2, g1]; exact hf)
        (by rw [fprintf_pending _ _ _ _ hw, hp])
        (by rw [next_silent_fault_congr w w1 g5]; exact hok) h
      rw [g2] at this
      rw [this]
      simp [encode]

/-- When `generate_source` returns 1 every `fprintf` succeeded; if the `fclose` that follows
does not fail, the file that the source path denotes holds the bytes of
`generate_source_text`. -/
theorem generate_source_success (w w' : World) (p v : List Char) (b : List Byte)
    (h : generate_source w p v b = (1, w')) (hok : (next_silent_fault w).1 = false) :
    w'.files (w.resolve p) = some (encode (generate_source_text v b)) := by
  unfold generate_source at h
  split at h
  · simp at h
  · rename_i fp w1 hopen
    obtain ⟨hf0, _, hres, _, hsp, hpend, hsil⟩ := fopen_w_some _ _ _ _ hopen
    have := write_all_success p p fp _ w1 w' [] [] hsp (by rw [hres]; exact hf0) hpend
      (by rw [next_silent_fault_congr w w1 hsil]; exact hok) h
    rw [hres] at this
    simpa [generate_source_text] using this

/-- The guard on a path whose text after the last separator is the non-empty `bn`. -/
theorem guard_of_last_component (dir bn : List Char) (hbn : bn ≠ [])
    (hsep : ∀ c ∈ bn, c ≠ '/' ∧ c ≠ '\\')
    (hdir : dir = [] ∨ ∃ d s, dir = d ++ [s] ∧ (s = '/' ∨ s = '\\')) :
    generate_include_guard false (dir ++ bn) =
      some (GuardResult.guard ('_' :: bn.map spec_guard_char)) := by
  unfold generate_include_guard
  rw [get_basename_last_component dir bn hbn hsep hdir]
  simp only [Bool.false_eq_true, if_false, List.take_length]
  congr 3
  exact List.map_congr_left (fun c _ => guard_char_eq_spec c)

/-- Two paths on which `get_basename` is defined and yields the same basename get the same
result from `generate_include_guard`. -/
theorem guard_of_equal_basename (malloc_fails : Bool) (p1 p2 b1 b2 : List Char)
    (n1 n2 : Nat) (h1 : get_basename p1 = some (b1, n1)) (h2 : get_basename p2 = some (b2, n2))
    (hb : b1.take n1 = b2.take n2) :
    generate_include_guard malloc_fails p1 = generate_include_guard malloc_fails p2 := by
  have hn : n1 = n2 := by
    have l1 := get_basename_length_le _ _ _ h1
    have l2 := get_basename_length_le _ _ _ h2
    have := congrArg List.length hb
    simp only [List.length_take] at this
    omega
  subst hn
  unfold generate_include_guard
  rw [h1, h2]
  simp only [hb]

/-! ### Claims on the header and its guard -/

/-- C5, the code on a header path that ends with separators: the basename of `foo\bar\\` is the
non-empty `bar` and `fopen` succeeds on it, but `generate_header` then calls `get_basename`,
which reads outside the string: no text is written, where the claim gives the text on the guard
`_BAR` that the path `foo\bar` gets. -/
theorem generate_header_trailing_separator :
    spec_basename "foo\\bar\\\\".toList = "bar".toList ∧
    (fopen_w (sample_world []) "foo\\bar\\\\".toList).1 = some 3 ∧
    (generate_header (sample_world []) "foo\\bar\\\\".toList "v".toList 3).isNone = true ∧
    (generate_header (sample_world []) "foo\\bar".toList "v".toList 3).map
        (fun r => (r.1, r.2.files "foo\\bar".toList)) =
      some (1, some (encode
        "#ifndef _BAR\n#define _BAR\n\nextern char v[3];\n\n#endif\n".toList)) := by
  decide

/-- C6, the code on a header path that ends with separators: the basename of `foo\bar\\` is the
non-empty `bar`, which the mapping of the claim sends to `BAR`, but `generate_include_guard`
returns no guard there, `get_basename` reading outside the string; on `foo\bar` it returns
`_BAR`, and on `foo/bar.baz.h` it returns `_BAR_BAZ_H`. -/
theorem generate_include_guard_trailing_separator :
    spec_basename "foo\\bar\\\\".toList = "bar".toList ∧
    '_' :: "bar".toList.map spec_guard_char = "_BAR".toList ∧
    generate_include_guard false "foo\\bar\\\\".toList = none ∧
    generate_include_guard false "foo\\bar".toList = some (GuardResult.guard "_BAR".toList) ∧
    generate_include_guard false "foo/bar.baz.h".toList =
      some (GuardResult.guard "_BAR_BAZ_H".toList) := by
  decide

/-- C15, the code on two header paths with the same basename `bar`: `foo/bar` gets the guard
`_BAR` while on `foo\bar\\` no guard is returned, `get_basename` reading outside the string. -/
theorem include_guard_differs_on_equal_basenames :
    spec_basename "foo/bar".toList = "bar".toList ∧
    spec_basename "foo\\bar\\\\".toList = "bar".toList ∧
    generate_include_guard false "foo/bar".toList = some (GuardResult.guard "_BAR".toList) ∧
    generate_include_guard false "foo\\bar\\\\".toList = none := by
  decide

/-! ### Claims on the orchestrator -/

/-- C10 (amended): when `read_file_content` and `generate_header` succeed and `generate_source`
fails, `file_to_c_array` calls `unlink` on the header path and returns 0; when that `unlink`
succeeds no file exists at the header path afterwards, and when it fails, its result being
ignored, the files are as `generate_source` left them. -/
theorem header_unlinked_on_source_failure (w w1 w2 w3 : World)
    (file_path header_path source_path var_name : List Char) (file_content : List Byte)
    (hr : read_file_content w file_path = (some file_content, w1))
    (hh : generate_header w1 header_path var_name file_content.length = some (1, w2))
    (hs : generate_source w2 source_path var_name file_content = (0, w3)) :
    ∃ w', file_to_c_array w file_path header_path source_path var_name = some (0, w') ∧
      ((next_silent_fault w3).1 = false → w'.files (w'.resolve header_path) = none) ∧
      ((next_silent_fault w3).1 = true → w'.files = w3.files) := by
  refine ⟨unlink w3 header_path, ?_, ?_, ?_⟩
  · unfold file_to_c_array
    rw [hr]
    simp only [hh, hs]
  · intro hok
    rw [(unlink_fields _ _).2.1]
    exact unlink_removes w3 header_path hok
  · intro hfail
    exact unlink_failed w3 header_path hfail

theorem header_unlinked_on_source_failure_witness :
    ∃ w',
      file_to_c_array (sample_world source_write_fails) "in.bin".toList "out.h".toList
        "out.c".toList "v".toList = some (0, w') ∧
      w'.files (w'.resolve "out.h".toList) = none :=
  (header_unlinked_on_source_failure
    (sample_world source_write_fails)
    (read_file_content (sample_world source_write_fails) "in.bin".toList).2
    ((generate_header (read_file_content (sample_world source_write_fails) "in.bin".toList).2
      "out.h".toList "v".toList 3).getD (0, sample_world [])).2
    (generate_source ((generate_header
      (read_file_content (sample_world source_write_fails) "in.bin".toList).2
      "out.h".toList "v".toList 3).getD (0, sample_world [])).2
      "out.c".toList "v".toList [1, 2, 255]).2
    "in.bin".toList "out.h".toList "out.c".toList "v".toList [1, 2, 255] rfl rfl rfl).elim
    (fun w' h => ⟨w', h.1, h.2.1 rfl⟩)

/-- C10 as stated fails when the `unlink` of the header fails: on `unlink_fails_world` the
input is read, `generate_header` returns 1, `generate_source` returns 0 at its second `fprintf`
and `file_to_c_array` returns 0, yet `out.h` is still there with the whole header text. -/
theorem header_left_when_unlink_fails :
    (read_file_content unlink_fails_world "in.bin".toList).1 = some [1, 2, 255] ∧
    (generate_header (read_file_content unlink_fails_world "in.bin".toList).2
      "out.h".toList "v".toList 3).map Prod.fst = some 1 ∧
    (generate_header (read_file_content unlink_fails_world "in.bin".toList).2
      "out.h".toList "v".toList 3).map
        (fun r => (generate_source r.2 "out.c".toList "v".toList [1, 2, 255]).1) = some 0 ∧
    (file_to_c_array unlink_fails_world "in.bin".toList "out.h".toList "out.c".toList
      "v".toList).map (fun r => (r.1, r.2.files (r.2.resolve "out.h".toList))) =
      some (0, some (encode
        "#ifndef _OUT_H\n#define _OUT_H\n\nextern char v[3];\n\n#endif\n".toList)) := by
  decide

/-- C11 (amended): when `read_file_content` succeeds and `generate_header` fails, the source
path denoting a file other than the one the header path denotes, `file_to_c_array` returns 0 in
the very state `generate_header` left: `generate_source` is not called, the file that the
source path denotes (present or not) is as before the call, and the only stream that may have
been added is the one `read_file_content` opened on the input path. -/
theorem source_untouched_on_header_failure (w w1 w2 : World)
    (file_path header_path source_path var_name : List Char) (file_content : List Byte)
    (hr : read_file_content w file_path = (some file_content, w1))
    (hh : generate_header w1 header_path var_name file_content.length = some (0, w2))
    (hne : w.resolve source_path ≠ w.resolve header_path) :
    file_to_c_array w file_path header_path source_path var_name = some (0, w2) ∧
    w2.files (w.resolve source_path) = w.files (w.resolve source_path) ∧
    ∀ s ∈ w2.streams, s ∈ w.streams ∨ s.2 = file_path := by
  obtain ⟨hf1, hres1, fp, hs1⟩ := read_file_content_success_frame _ _ _ _ hr
  obtain ⟨hf2, hs2⟩ := generate_header_failure_frame _ _ _ _ _ hh
  refine ⟨?_, ?_, ?_⟩
  · unfold file_to_c_array
    rw [hr]
    simp only [hh]
  · rw [hf2 (w.resolve source_path) (by rw [hres1]; exact hne), hf1]
  · intro s hs
    have := hs2 s hs
    rw [hs1] at this
    rcases List.mem_cons.1 this with h | h
    · right; rw [h]
    · left; exact h

theorem source_untouched_on_header_failure_witness :
    (alias_world header_write_fails).resolve "./out.c".toList ≠
      (alias_world header_write_fails).resolve "out.h".toList ∧
    (file_to_c_array (alias_world header_write_fails) "in.bin".toList "out.h".toList
        "./out.c".toList "v".toList =
      some (0, ((generate_header
        (read_file_content (alias_world header_write_fails) "in.bin".toList).2
        "out.h".toList "v".toList 3).getD (1, sample_world [])).2) ∧
    ((generate_header
        (read_file_content (alias_world header_write_fails) "in.bin".toList).2
        "out.h".toList "v".toList 3).getD (1, sample_world [])).2.files
        ((alias_world header_write_fails).resolve "./out.c".toList) =
      (alias_world header_write_fails).files
        ((alias_world header_write_fails).resolve "./out.c".toList) ∧
    ∀ s ∈ ((generate_header
        (read_file_content (alias_world header_write_fails) "in.bin".toList).2
        "out.h".toList "v".toList 3).getD (1, sample_world [])).2.streams,
      s ∈ (alias_world header_write_fails).streams ∨ s.2 = "in.bin".toList) :=
  ⟨by decide, source_untouched_on_header_failure (alias_world header_write_fails)
    (read_file_content (alias_world header_write_fails) "in.bin".toList).2 _
    "in.bin".toList "out.h".toList "./out.c".toList "v".toList [1, 2, 255] rfl rfl (by decide)⟩

/-- C11 as stated fails when the two paths denote one file: with the header path `out.c` and
the source path `./out.c`, the `fopen` of `generate_header` truncates the existing file,
`fprintf` fails, `generate_header` unlinks the file and returns 0, and `file_to_c_array` returns
0; the file that the source path denotes, which held one byte before the call, is gone. -/
theorem source_removed_on_header_failure :
    "./out.c".toList ≠ "out.c".toList ∧
    (alias_world header_write_fails).files
      ((alias_world header_write_fails).resolve "./out.c".toList) = some [7] ∧
    (read_file_content (alias_world header_write_fails) "in.bin".toList).1 =
      some [1, 2, 255] ∧
    (generate_header (read_file_content (alias_world header_write_fails) "in.bin".toList).2
      "out.c".toList "v".toList 3).map Prod.fst = some 0 ∧
    (file_to_c_array (alias_world header_write_fails) "in.bin".toList "out.c".toList
      "./out.c".toList "v".toList).map
        (fun r => (r.1, r.2.files (r.2.resolve "./out.c".toList))) = some (0, none) := by
  decide

/-- C13, error presence: whenever `file_to_c_array` returns, it returns 0 or 1, and it returns 0
exactly when `error_msg` is non-empty afterwards, whatever the message was before the call (a
return of 1 leaves it empty); and each of `read_file_content`, `generate_header`,
`generate_include_guard` and `generate_source` has set a non-empty message whenever it reports
failure. -/
theorem error_message_presence (w w' : World)
    (file_path header_path source_path var_name : List Char) (r : Nat)
    (h : file_to_c_array w file_path header_path source_path var_name = some (r, w')) :
    (r = 0 ∨ r = 1) ∧ (r = 0 ↔ w'.error_msg ≠ []) ∧ (r = 1 → w'.error_msg = []) ∧
    (∀ (u u1 : World) (p : List Char), read_file_content u p = (none, u1) →
      u1.error_msg ≠ []) ∧
    (∀ (u u1 : World) (p v : List Char) (n : Nat), generate_header u p v n = some (0, u1) →
      u1.error_msg ≠ []) ∧
    (∀ (malloc_fails : Bool) (p msg : List Char),
      generate_include_guard malloc_fails p = some (GuardResult.null msg) → msg ≠ []) ∧
    (∀ (u u1 : World) (p v : List Char) (b : List Byte), generate_source u p v b = (0, u1) →
      u1.error_msg ≠ []) := by
  have hres := file_to_c_array_result _ _ _ _ _ _ _ h
  refine ⟨?_, ?_, ?_, ?_, ?_, ?_, ?_⟩
  · rcases hres with hx | hx
    · exact Or.inl hx.1
    · exact Or.inr hx.1
  · rcases hres with hx | hx
    · exact ⟨fun _ => hx.2, fun _ => hx.1⟩
    · constructor
      · intro h0; rw [hx.1] at h0; exact absurd h0 (by decide)
      · intro hm; exact absurd hx.2 hm
  · intro h1
    rcases hres with hx | hx
    · rw [hx.1] at h1; exact absurd h1 (by decide)
    · exact hx.2
  · exact fun u u1 p hu => read_file_content_failure u u1 p hu
  · intro u u1 p v n hu
    rcases generate_header_result _ _ _ _ _ _ hu with hx | hx
    · exact hx.2
    · exact absurd hx (by decide)
  · exact fun mf p msg hg => generate_include_guard_null mf p msg hg
  · intro u u1 p v b hu
    rcases generate_source_result _ _ _ _ _ _ hu with hx | hx
    · exact hx.2
    · exact absurd hx (by decide)

theorem error_message_presence_witness :
    ({ sample_world [] with error_msg := "Failed to open x".toList } : World).error_msg ≠ [] ∧
    ∃ w', file_to_c_array { sample_world [] with error_msg := "Failed to open x".toList }
        "in.bin".toList "out.h".toList "out.c".toList "v".toList = some (1, w') ∧
      w'.error_msg = [] :=
  ⟨by decide, _, rfl,
    (error_message_presence { sample_world [] with error_msg := "Failed to open x".toList } _
      "in.bin".toList "out.h".toList "out.c".toList "v".toList 1 rfl).2.2.1 rfl⟩

end FileToCArray
